import Mathlib

/-!
Verification development for the agent-process stream coordination layer
(`packages/agent-core`): the `StreamParser` JSON framer, the
`OpenCodeLogWatcher` log sentinel, the `PermissionRequestHandler`
interaction broker and the `ThoughtStreamHandler` event validator.

Text streams are modelled as `List Char`; the embeddings follow the
TypeScript sources statement by statement.
-/

namespace OpenWork

/-! ## StreamParser (src/packages/agent-core/src/internal/classes/StreamParser.ts) -/

/-- `MAX_BUFFER_SIZE = 10 * 1024 * 1024` from StreamParser.ts. -/
def MAX_BUFFER_SIZE : Nat := 10 * 1024 * 1024

/-- Index of the first opening brace, mirroring `buffer.indexOf(brace)`
(`none` plays the role of `-1`). -/
def idxOfBrace : List Char → Option Nat
  | [] => none
  | c :: cs => if c = '{' then some 0 else (idxOfBrace cs).map (· + 1)

/-- The scanning loop of `StreamParser.findJsonEnd`: brace depth plus an
in-string flag and an escape flag; returns the index of the brace that
closes the first top-level JSON object, if the scan finds one.  The depth
is an `Int` because the JavaScript counter may go below zero on stray
closing braces. -/
def findJsonEndAux (depth : Int) (inString escape : Bool) (i : Nat) :
    List Char → Option Nat
  | [] => none
  | c :: cs =>
    if escape then findJsonEndAux depth inString false (i + 1) cs
    else if c = '\\' ∧ inString then findJsonEndAux depth inString true (i + 1) cs
    else if c = '"' then findJsonEndAux depth (!inString) escape (i + 1) cs
    else if inString then findJsonEndAux depth inString escape (i + 1) cs
    else if c = '{' then findJsonEndAux (depth + 1) inString escape (i + 1) cs
    else if c = '}' then
      if depth - 1 = 0 then some i
      else findJsonEndAux (depth - 1) inString escape (i + 1) cs
    else findJsonEndAux depth inString escape (i + 1) cs

/-- `StreamParser.findJsonEnd` (`none` plays the role of `-1`). -/
def findJsonEnd (s : List Char) : Option Nat :=
  findJsonEndAux 0 false false 0 s

/-- The `parseBuffer` loop of StreamParser: returns the list of complete
frames extracted (in order) and the retained tail of the buffer. -/
def parseBufferGo (buf : List Char) : List (List Char) × List Char :=
  match h : idxOfBrace buf with
  | none => ([], [])
  | some i =>
    let b := buf.drop i
    match findJsonEnd b with
    | none => ([], b)
    | some e =>
      let frame := b.take (e + 1)
      let rest := b.drop (e + 1)
      let res := parseBufferGo rest
      (frame :: res.1, res.2)
termination_by buf.length
decreasing_by
  have hi : ∀ (s : List Char) (j : Nat), idxOfBrace s = some j → j < s.length := by
    intro s
    induction s with
    | nil => intro j hj; simp [idxOfBrace] at hj
    | cons c cs ih =>
      intro j hj
      simp only [idxOfBrace] at hj
      by_cases hc : c = '{'
      · simp [hc] at hj
        simp only [List.length_cons]
        omega
      · simp [hc] at hj
        obtain ⟨j2, hj2, rfl⟩ := hj
        have := ih j2 hj2
        simp only [List.length_cons]
        omega
  have hb := hi buf i h
  simp only [List.length_drop]
  omega

/-! ### JSON values

The objects travelling over the stream.  Mutually inductive (rather than
nested) so that mutual structural induction is available. -/

mutual
inductive Json where
  | str : List Char → Json
  | num : Nat → Json
  | boolean : Bool → Json
  | null : Json
  | arr : JsonArr → Json
  | obj : JsonObj → Json
  deriving DecidableEq
inductive JsonArr where
  | nil : JsonArr
  | cons : Json → JsonArr → JsonArr
  deriving DecidableEq
inductive JsonObj where
  | nil : JsonObj
  | cons : List Char → Json → JsonObj → JsonObj
  deriving DecidableEq
end

/-- Escaping of one character inside a JSON string literal. -/
def escChar (c : Char) : List Char :=
  if c = '"' then ['\\', '"']
  else if c = '\\' then ['\\', '\\']
  else if c = '\n' then ['\\', 'n']
  else if c = '\r' then ['\\', 'r']
  else [c]

/-- Body of a serialized JSON string literal. -/
def escStr (s : List Char) : List Char := s.flatMap escChar

/-- A serialized JSON string literal, quotes included. -/
def serStr (s : List Char) : List Char := '"' :: escStr s ++ ['"']

/-- Decimal digit to character. -/
def digitToChar : Nat → Char
  | 0 => '0' | 1 => '1' | 2 => '2' | 3 => '3' | 4 => '4'
  | 5 => '5' | 6 => '6' | 7 => '7' | 8 => '8' | _ => '9'

/-- Decimal representation of a natural number. -/
def serNat (n : Nat) : List Char :=
  if n = 0 then ['0'] else (Nat.digits 10 n).reverse.map digitToChar

/-- Value of a string of decimal digits (the relevant fragment of
JavaScript `parseInt(s, 10)`). -/
def digitsVal (ds : List Char) : Nat :=
  ds.foldl (fun a c => 10 * a + (c.toNat - 48)) 0

mutual
/-- Canonical JSON serialization: no insignificant whitespace, strings
escaped by `escChar`. -/
def serialize : Json → List Char
  | .str s => serStr s
  | .num n => serNat n
  | .boolean true => ['t', 'r', 'u', 'e']
  | .boolean false => ['f', 'a', 'l', 's', 'e']
  | .null => ['n', 'u', 'l', 'l']
  | .arr a => '[' :: serArrBody a ++ [']']
  | .obj o => '{' :: serObjBody o ++ ['}']
def serArrBody : JsonArr → List Char
  | .nil => []
  | .cons v .nil => serialize v
  | .cons v (.cons w tl) => serialize v ++ ',' :: serArrBody (.cons w tl)
def serObjBody : JsonObj → List Char
  | .nil => []
  | .cons k v .nil => serStr k ++ ':' :: serialize v
  | .cons k v (.cons k2 w tl) => serStr k ++ ':' :: serialize v ++ ',' :: serObjBody (.cons k2 w tl)
end

/-- Unescaping of one escape character inside a JSON string literal
(the fragment of escapes that `escChar` produces). -/
def unescChar : Char → Option Char
  | '"' => some '"'
  | '\\' => some '\\'
  | 'n' => some '\n'
  | 'r' => some '\r'
  | _ => none

/-- Modelled from the spec: the string-literal part of the host
platform's `JSON.parse` (`StreamParser.parseJsonString` calls
`JSON.parse`, which is not part of this repository).  Consumes the body
of a string literal up to and including the closing quote. -/
def parseStrBody : List Char → Option (List Char × List Char)
  | [] => none
  | c :: r =>
    if c = '"' then some ([], r)
    else if c = '\\' then
      match r with
      | [] => none
      | e :: r2 =>
        match unescChar e, parseStrBody r2 with
        | some c2, some p => some (c2 :: p.1, p.2)
        | _, _ => none
    else (parseStrBody r).map (fun p => (c :: p.1, p.2))

mutual
/-- Modelled from the spec: recursive-descent JSON value parser standing
in for the host `JSON.parse` (fuelled for termination). -/
def parseV : Nat → List Char → Option (Json × List Char)
  | 0, _ => none
  | fuel + 1, s =>
    match s with
    | [] => none
    | c :: r =>
      if c = '"' then (parseStrBody r).map (fun p => (Json.str p.1, p.2))
      else if c = 't' then
        if r.take 3 = ['r', 'u', 'e'] then some (Json.boolean true, r.drop 3)
        else none
      else if c = 'f' then
        if r.take 4 = ['a', 'l', 's', 'e'] then some (Json.boolean false, r.drop 4)
        else none
      else if c = 'n' then
        if r.take 3 = ['u', 'l', 'l'] then some (Json.null, r.drop 3)
        else none
      else if c = '[' then
        if r.head? = some ']' then some (Json.arr JsonArr.nil, r.drop 1)
        else (parseElems fuel r).map (fun p => (Json.arr p.1, p.2))
      else if c = '{' then
        if r.head? = some '}' then some (Json.obj JsonObj.nil, r.drop 1)
        else (parseMembers fuel r).map (fun p => (Json.obj p.1, p.2))
      else if c.isDigit then
        some (Json.num (digitsVal ((c :: r).takeWhile Char.isDigit)),
              (c :: r).dropWhile Char.isDigit)
      else none
def parseElems : Nat → List Char → Option (JsonArr × List Char)
  | 0, _ => none
  | fuel + 1, s =>
    match parseV fuel s with
    | none => none
    | some (v, r) =>
      if r.head? = some ',' then
        match parseElems fuel (r.drop 1) with
        | some p => some (JsonArr.cons v p.1, p.2)
        | none => none
      else if r.head? = some ']' then some (JsonArr.cons v JsonArr.nil, r.drop 1)
      else none
def parseMembers : Nat → List Char → Option (JsonObj × List Char)
  | 0, _ => none
  | fuel + 1, s =>
    match s with
    | [] => none
    | c :: r =>
      if c = '"' then
        match parseStrBody r with
        | none => none
        | some (k, r2) =>
          if r2.head? = some ':' then
            match parseV fuel (r2.drop 1) with
            | none => none
            | some (v, r4) =>
              if r4.head? = some ',' then
                match parseMembers fuel (r4.drop 1) with
                | some p => some (JsonObj.cons k v p.1, p.2)
                | none => none
              else if r4.head? = some '}' then
                some (JsonObj.cons k v JsonObj.nil, r4.drop 1)
              else none
          else none
      else none
end

/-- Modelled from the spec: top-level `JSON.parse` on a complete
document — the whole input must be consumed. -/
def jsonParse (s : List Char) : Option Json :=
  match parseV (s.length + 1) s with
  | some (v, []) => some v
  | _ => none

/-! ### The feed cycle -/

/-- JavaScript `String.prototype.trim` whitespace (the characters
relevant to this development). -/
def jsWhitespace (c : Char) : Bool :=
  c = ' ' ∨ c = '\t' ∨ c = '\n' ∨ c = '\r' ∨ c = '\x0b' ∨ c = '\x0c'

/-- JavaScript `s.trim()`. -/
def jsTrim (s : List Char) : List Char :=
  ((s.dropWhile jsWhitespace).reverse.dropWhile jsWhitespace).reverse

/-- `StreamParser.sanitizeJson`: `str.replace` of every CR and LF by
nothing. -/
def sanitizeJson (s : List Char) : List Char :=
  s.filter (fun c => ¬(c = '\r' ∨ c = '\n'))

/-- `StreamParser.parseJsonString`: trim, drop empty frames, sanitize,
then attempt a JSON decode; `some` means a `message` event is emitted,
`none` means the frame is dropped (decode failure is only logged). -/
def parseJsonStringModel (jsonStr : List Char) : Option Json :=
  let trimmed := jsTrim jsonStr
  if trimmed = [] then none
  else jsonParse (sanitizeJson trimmed)

/-- The internal state of one `StreamParser`. -/
structure SPState where
  buffer : List Char
  deriving DecidableEq

/-- Events emitted by the `StreamParser`: `message` with the decoded
payload, or the buffer-overflow `error`. -/
inductive SPEv where
  | message : Json → SPEv
  | error : SPEv
  deriving DecidableEq

/-- `StreamParser.feed`: append the chunk, run `parseBuffer`, then clear
the buffer and emit `error` if the retained length exceeds
`MAX_BUFFER_SIZE`. -/
def feed (s : SPState) (chunk : List Char) : SPState × List SPEv :=
  let res := parseBufferGo (s.buffer ++ chunk)
  let msgs := (res.1.filterMap parseJsonStringModel).map SPEv.message
  if MAX_BUFFER_SIZE < res.2.length then (⟨[]⟩, msgs ++ [SPEv.error])
  else (⟨res.2⟩, msgs)

/-- Feeding a sequence of chunks, collecting all emitted events. -/
def feedAll (s : SPState) : List (List Char) → SPState × List SPEv
  | [] => (s, [])
  | c :: cs =>
    let r1 := feed s c
    let r2 := feedAll r1.1 cs
    (r2.1, r1.2 ++ r2.2)


/-- One step of the `findJsonEnd` scan: `none` means the scan stops at
this character (closing brace of the frame), `some` carries the next
scanner state. -/
def fjNext (depth : Int) (inString escape : Bool) (c : Char) :
    Option (Int × Bool × Bool) :=
  if escape then some (depth, inString, false)
  else if c = '\\' ∧ inString then some (depth, inString, true)
  else if c = '"' then some (depth, !inString, escape)
  else if inString then some (depth, inString, escape)
  else if c = '{' then some (depth + 1, inString, escape)
  else if c = '}' then
    if depth - 1 = 0 then none
    else some (depth - 1, inString, escape)
  else some (depth, inString, escape)

/-- The continuation after a serialized token must not begin with a
decimal digit (numbers are parsed greedily). -/
def firstNotDigit (rest : List Char) : Prop :=
  ∀ c, rest.head? = some c → c.isDigit = false

/-- A concatenation of serialized objects with noise in front of, between
and after them: `interleave n0 [(o1, n1), (o2, n2)]` is
`n0 ++ ser o1 ++ n1 ++ ser o2 ++ n2`. -/
def interleave : List Char → List (JsonObj × List Char) → List Char
  | n0, [] => n0
  | n0, (o, nn) :: ps => n0 ++ (serialize (.obj o) ++ interleave nn ps)

theorem idxOfBrace_lt_length {s : List Char} {i : Nat} (h : idxOfBrace s = some i) :
    i < s.length := by
  induction s generalizing i with
  | nil => simp [idxOfBrace] at h
  | cons c cs ih =>
    simp only [idxOfBrace] at h
    by_cases hc : c = '{'
    · simp [hc] at h
      simp only [List.length_cons]
      omega
    · simp [hc] at h
      obtain ⟨j, hj, rfl⟩ := h
      have := ih hj
      simp
      omega

/-! ## OpenCodeLogWatcher (src/packages/agent-core/src/internal/classes/OpenCodeLogWatcher.ts) -/

/-- Regular-expression abstract syntax covering exactly the constructs
used by the patterns in OpenCodeLogWatcher.ts. -/
inductive RE where
  | eps : RE
  | lit : Char → RE
  | anyC : RE
  | cls : Bool → List Char → RE
  | cat : RE → RE → RE
  | alt : RE → RE → RE
  | star : RE → Bool → RE
  | group : Nat → RE → RE

/-- Captured groups of one match (the patterns use at most three). -/
structure MRes where
  g1 : Option (List Char) := none
  g2 : Option (List Char) := none
  g3 : Option (List Char) := none
  deriving DecidableEq

def setGroup (n : Nat) (v : List Char) (m : MRes) : MRes :=
  if n = 1 then { m with g1 := some v }
  else if n = 2 then { m with g2 := some v }
  else { m with g3 := some v }

/-- Character comparison, folding case when the `i` flag is set (the
patterns are ASCII-only). -/
def cmatch (ci : Bool) (c d : Char) : Bool :=
  c = d ∨ (ci ∧ c.toLower = d.toLower)

def clsMatch (neg : Bool) (cs : List Char) (d : Char) : Bool :=
  if neg then !(cs.contains d) else cs.contains d

/-- Backtracking matcher in continuation-passing style; the fuel bounds
recursion depth and is chosen large enough at the call site.  Priority
follows the JavaScript engine: alternatives left to right, greedy stars
longest first, lazy stars shortest first (stars guard against empty
iterations). -/
def reMatch (ci : Bool) : Nat → RE → List Char → MRes →
    (List Char → MRes → Option MRes) → Option MRes
  | 0, _, _, _, _ => none
  | fuel + 1, r, s, caps, k =>
    match r with
    | .eps => k s caps
    | .lit c =>
      match s with
      | [] => none
      | d :: s2 => if cmatch ci c d then k s2 caps else none
    | .anyC =>
      match s with
      | [] => none
      | d :: s2 => if d = '\n' ∨ d = '\r' then none else k s2 caps
    | .cls neg cs =>
      match s with
      | [] => none
      | d :: s2 => if clsMatch neg cs d then k s2 caps else none
    | .cat r1 r2 =>
      reMatch ci fuel r1 s caps (fun s2 caps2 => reMatch ci fuel r2 s2 caps2 k)
    | .alt r1 r2 =>
      match reMatch ci fuel r1 s caps k with
      | some m => some m
      | none => reMatch ci fuel r2 s caps k
    | .star r1 greedy =>
      if greedy then
        match reMatch ci fuel r1 s caps
            (fun s2 caps2 =>
              if s2.length = s.length then none
              else reMatch ci fuel (.star r1 true) s2 caps2 k) with
        | some m => some m
        | none => k s caps
      else
        match k s caps with
        | some m => some m
        | none =>
          reMatch ci fuel r1 s caps
            (fun s2 caps2 =>
              if s2.length = s.length then none
              else reMatch ci fuel (.star r1 false) s2 caps2 k)
    | .group n r1 =>
      reMatch ci fuel r1 s caps
        (fun s2 caps2 => k s2 (setGroup n (s.take (s.length - s2.length)) caps2))

def reSize : RE → Nat
  | .eps => 1
  | .lit _ => 1
  | .anyC => 1
  | .cls _ _ => 1
  | .cat a b => reSize a + reSize b + 1
  | .alt a b => reSize a + reSize b + 1
  | .star r _ => reSize r + 2
  | .group _ r => reSize r + 1

/-- Match the pattern at the start of the input (used for the anchored
timestamp pattern and as one step of the position scan). -/
def reMatchAt (ci : Bool) (r : RE) (s : List Char) : Option MRes :=
  reMatch ci ((s.length + 1) * (reSize r + 2)) r s {} (fun _ caps => some caps)

/-- JavaScript `line.match(re)` without the `g` flag: try each start
position from the left, return the first match's captures. -/
def reFind (ci : Bool) (r : RE) : List Char → Option MRes
  | [] => reMatchAt ci r []
  | c :: s2 =>
    match reMatchAt ci r (c :: s2) with
    | some m => some m
    | none => reFind ci r s2

def lits : List Char → RE
  | [] => RE.eps
  | c :: cs => RE.cat (RE.lit c) (lits cs)

def litStr (s : String) : RE := lits s.toList

/-- Greedy `.*`. -/
def dotStarG : RE := RE.star RE.anyC true

/-- Lazy `.*?`. -/
def dotStarL : RE := RE.star RE.anyC false

def digitC : RE := RE.cls false ['0', '1', '2', '3', '4', '5', '6', '7', '8', '9']

def wordC : RE :=
  RE.cls false ("abcdefghijklmnopqrstuvwxyzABCDEFGHIJKLMNOPQRSTUVWXYZ0123456789_".toList)

/-- The ASCII core of JavaScript whitespace (sufficient for these log
lines). -/
def spaceChars : List Char := [' ', '\t', '\n', '\r', '\x0b', '\x0c']

def spaceC : RE := RE.cls false spaceChars

def nonSpaceC : RE := RE.cls true spaceChars

/-- Greedy `+`. -/
def plusG (r : RE) : RE := RE.cat r (RE.star r true)

def altList : List RE → RE
  | [] => RE.cls false []
  | [r] => r
  | r :: rs => RE.alt r (altList rs)

/-- Pattern 1 of `ERROR_PATTERNS` (with the `i` flag). -/
def reP1 : RE :=
  RE.cat (litStr "openai") (RE.cat dotStarG (altList [
    litStr "invalid_api_key",
    litStr "invalid_token",
    RE.cat (litStr "token") (RE.cat dotStarG (litStr "expired")),
    RE.cat (litStr "oauth") (RE.cat dotStarG (litStr "invalid")),
    litStr "Incorrect API key"]))

/-- Pattern 2 of `ERROR_PATTERNS` (with the `i` flag). -/
def reP2 : RE :=
  altList [
    RE.cat (litStr "openai") (RE.cat dotStarG
      (RE.cat (litStr "\"status\":") (RE.cat (RE.star spaceC true) (litStr "401")))),
    RE.cat (litStr "\"status\":") (RE.cat (RE.star spaceC true)
      (RE.cat (litStr "401") (RE.cat dotStarG (litStr "openai")))),
    RE.cat (litStr "providerID=openai") (RE.cat dotStarG
      (RE.cat (litStr "statusCode") (RE.cat dotStarG (litStr "401"))))]

/-- Pattern 3 of `ERROR_PATTERNS` (with the `i` flag). -/
def reP3 : RE :=
  altList [
    RE.cat (litStr "openai") (RE.cat dotStarG
      (RE.cat (litStr "authentication") (RE.cat dotStarG (litStr "failed")))),
    RE.cat (litStr "authentication") (RE.cat dotStarG
      (RE.cat (litStr "failed") (RE.cat dotStarG (litStr "openai"))))]

/-- Pattern 4 of `ERROR_PATTERNS`. -/
def reP4 : RE :=
  RE.cat (litStr "ThrottlingException") (RE.cat dotStarL
    (RE.cat (litStr "\"message\":\"")
      (RE.cat (RE.group 1 (plusG (RE.cls true ['"']))) (RE.lit '"'))))

/-- Pattern 5 of `ERROR_PATTERNS`. -/
def reP5 : RE :=
  RE.cat (litStr "\"name\":\"AI_APICallError\"") (RE.cat dotStarL
    (RE.cat (litStr "\"statusCode\":") (RE.cat (RE.group 1 (plusG digitC))
      (RE.cat dotStarL (RE.cat (litStr "\"message\":\"")
        (RE.cat (RE.group 2 (plusG (RE.cls true ['"']))) (RE.lit '"')))))))

/-- Pattern 6 of `ERROR_PATTERNS`. -/
def reP6 : RE :=
  RE.cat (litStr "\"name\":\"AI_APICallError\"") (RE.cat dotStarL
    (RE.cat (litStr "\"statusCode\":") (RE.group 1 (plusG digitC))))

/-- Pattern 7 of `ERROR_PATTERNS`. -/
def reP7 : RE :=
  altList [litStr "AccessDeniedException", litStr "UnauthorizedException",
    litStr "InvalidSignatureException"]

/-- Pattern 8 of `ERROR_PATTERNS` (with the `i` flag). -/
def reP8 : RE :=
  altList [litStr "ModelNotFoundError",
    RE.cat (litStr "ResourceNotFoundException") (RE.cat dotStarG (litStr "model"))]

/-- Pattern 9 of `ERROR_PATTERNS`. -/
def reP9 : RE :=
  RE.cat (litStr "ValidationException") (RE.cat dotStarL
    (RE.cat (litStr "\"message\":\"")
      (RE.cat (RE.group 1 (plusG (RE.cls true ['"']))) (RE.lit '"'))))

/-- The `key=value` extraction patterns of `parseLine`. -/
def reService : RE := RE.cat (litStr "service=") (RE.group 1 (plusG nonSpaceC))

def reProvider : RE := RE.cat (litStr "providerID=") (RE.group 1 (plusG nonSpaceC))

def reModel : RE := RE.cat (litStr "modelID=") (RE.group 1 (plusG nonSpaceC))

def reSession : RE := RE.cat (litStr "sessionID=") (RE.group 1 (plusG nonSpaceC))

/-- The anchored timestamp pattern of `parseLine` (matched only at the
start of the line). -/
def reTimestamp : RE :=
  RE.cat (RE.group 1 (plusG wordC)) (RE.cat (plusG spaceC)
    (RE.cat (RE.group 2 (plusG nonSpaceC)) (RE.cat (plusG spaceC)
      (RE.group 3 (RE.cat (RE.lit '+') (RE.cat (plusG digitC) (litStr "ms")))))))

/-- The partial error record produced by a rule's `extract` function. -/
structure ExtractInfo where
  errorName : String
  statusCode : Nat
  message : String
  providerID : Option String := none
  isAuthError : Bool := false
  deriving DecidableEq

/-- JavaScript `x || dflt` on an optional captured string. -/
def jsOrStr : Option (List Char) → String → String
  | some s, dflt => if s.isEmpty then dflt else String.mk s
  | none, dflt => dflt

/-- One entry of the `ERROR_PATTERNS` table: a matcher (pattern plus
flags) and the `extract` function. -/
structure LogRule where
  pat : List Char → Option MRes
  extract : MRes → ExtractInfo

/-- The ordered `ERROR_PATTERNS` table of OpenCodeLogWatcher.ts. -/
def ERROR_PATTERNS : List LogRule := [
  ⟨reFind true reP1, fun _ =>
    { errorName := "OAuthExpiredError", statusCode := 401,
      message := "Your OpenAI session has expired. Please re-authenticate.",
      providerID := some "openai", isAuthError := true }⟩,
  ⟨reFind true reP2, fun _ =>
    { errorName := "OAuthUnauthorizedError", statusCode := 401,
      message := "Your OpenAI session has expired. Please re-authenticate.",
      providerID := some "openai", isAuthError := true }⟩,
  ⟨reFind true reP3, fun _ =>
    { errorName := "OAuthAuthenticationError", statusCode := 401,
      message := "OpenAI authentication failed. Please re-authenticate.",
      providerID := some "openai", isAuthError := true }⟩,
  ⟨reFind false reP4, fun m =>
    { errorName := "ThrottlingException", statusCode := 429,
      message := jsOrStr m.g1 "Rate limit exceeded. Please wait before trying again." }⟩,
  ⟨reFind false reP5, fun m =>
    { errorName := "AI_APICallError", statusCode := digitsVal (m.g1.getD []),
      message := String.mk (m.g2.getD []) }⟩,
  ⟨reFind false reP6, fun m =>
    { errorName := "AI_APICallError", statusCode := digitsVal (m.g1.getD []),
      message := "API call failed with status " ++ String.mk (m.g1.getD []) }⟩,
  ⟨reFind false reP7, fun _ =>
    { errorName := "AuthenticationError", statusCode := 403,
      message := "Authentication failed. Please check your credentials." }⟩,
  ⟨reFind true reP8, fun _ =>
    { errorName := "ModelNotFoundError", statusCode := 404,
      message := "The requested model was not found or is not available in your region." }⟩,
  ⟨reFind false reP9, fun m =>
    { errorName := "ValidationError", statusCode := 400,
      message := jsOrStr m.g1 "Invalid request parameters." }⟩]

/-- The emitted error record (`OpenCodeLogError` in the source).
`timestamp = none` models the `new Date().toISOString()` wall-clock
fallback; the built record takes `providerID` from the line's own
`providerID=` token (the extract's `providerID` and `isAuthError` fields
are not copied by the source). -/
structure OpenCodeLogError where
  timestamp : Option String
  service : String
  providerID : Option String
  modelID : Option String
  sessionID : Option String
  errorName : String
  statusCode : Option Nat
  message : Option String
  raw : String
  deriving DecidableEq

/-- The session id captured from the line (`sessionMatch?.[1]`). -/
def sessionOf (line : List Char) : Option String :=
  ((reFind false reSession line).bind (fun m => m.g1)).map String.mk

/-- The dedup key: `errorName:statusCode:sessionID-or-empty`. -/
def errorKey (info : ExtractInfo) (session : Option String) : String :=
  info.errorName ++ ":" ++ Nat.repr info.statusCode ++ ":" ++ session.getD ""

/-- Building the emitted record from the extract info and the line's own
`key=value` tokens. -/
def buildError (info : ExtractInfo) (line : List Char) : OpenCodeLogError :=
  { timestamp := ((reMatchAt false reTimestamp line).bind (fun m => m.g2)).map String.mk
  , service := ((((reFind false reService line).bind (fun m => m.g1)).map String.mk)).getD "unknown"
  , providerID := ((reFind false reProvider line).bind (fun m => m.g1)).map String.mk
  , modelID := ((reFind false reModel line).bind (fun m => m.g1)).map String.mk
  , sessionID := sessionOf line
  , errorName := if info.errorName = "" then "UnknownError" else info.errorName
  , statusCode := some info.statusCode
  , message := some info.message
  , raw := String.mk line }

/-- The rule loop of `OpenCodeLogWatcher.parseLine`: first match is
extracted; a seen dedup key makes the loop `continue` with the next rule;
a fresh key is recorded and its error emitted (the `return` ends the
loop, so at most one error is emitted per line). -/
def parseLineGo : List LogRule → List String → List Char →
    List String × List OpenCodeLogError
  | [], seen, _ => (seen, [])
  | r :: rs, seen, line =>
    match r.pat line with
    | none => parseLineGo rs seen line
    | some m =>
      let info := r.extract m
      let key := errorKey info (sessionOf line)
      if seen.contains key then parseLineGo rs seen line
      else (key :: seen, [buildError info line])

def startsWithL : List Char → List Char → Bool
  | [], _ => true
  | _ :: _, [] => false
  | a :: as, b :: bs => a = b && startsWithL as bs

/-- JavaScript `hay.includes(needle)`. -/
def containsSub (needle : List Char) : List Char → Bool
  | [] => startsWithL needle []
  | c :: cs => startsWithL needle (c :: cs) || containsSub needle cs

/-- `OpenCodeLogWatcher.parseLine`: lines without the literal `ERROR`
marker are ignored. -/
def parseLine (seen : List String) (line : List Char) :
    List String × List OpenCodeLogError :=
  if containsSub ("ERROR".toList) line then parseLineGo ERROR_PATTERNS seen line
  else (seen, [])

/-- Events emitted by the watcher. -/
inductive WEv where
  | logLine : String → WEv
  | errorEv : OpenCodeLogError → WEv
  deriving DecidableEq

/-- Truthiness of `line.trim()`: some character is not whitespace. -/
def jsTrimNonempty (l : List Char) : Bool := l.any fun c => !(jsWhitespace c)

/-- The body of the line loop in `readNewContent`: a non-blank line emits
a `log-line` event and runs `parseLine`. -/
def handleLine (seen : List String) (line : List Char) : List String × List WEv :=
  if jsTrimNonempty line then
    let res := parseLine seen line
    (res.1, WEv.logLine (String.mk line) :: res.2.map WEv.errorEv)
  else (seen, [])

def processLines : List String → List (List Char) → List String × List WEv
  | seen, [] => (seen, [])
  | seen, l :: ls =>
    let r1 := handleLine seen l
    let r2 := processLines r1.1 ls
    (r2.1, r1.2 ++ r2.2)

/-- `content.split(newline)`. -/
def splitOnNl : List Char → List (List Char)
  | [] => [[]]
  | c :: cs =>
    if c = '\n' then [] :: splitOnNl cs
    else
      match splitOnNl cs with
      | [] => [[c]]
      | l :: ls => (c :: l) :: ls

/-- The mutable fields of one `OpenCodeLogWatcher` (the poll and watch
handles carry no data relevant to the claims; `handleOpen` models
`fileHandle != null`). -/
structure WState where
  isWatching : Bool
  currentLogFile : Option String
  handleOpen : Bool
  readPosition : Nat
  seenErrors : List String
  deriving DecidableEq

def initialWState : WState := ⟨false, none, false, 0, []⟩

/-- `files.filter(endsWith log).sort().reverse()[0]`: the
lexicographically greatest log file name. -/
def latestLogFile (listing : List String) : Option String :=
  (listing.filter (fun f => f.endsWith ".log")).foldl
    (fun acc f =>
      match acc with
      | none => some f
      | some g => if g < f then some f else some g) none

/-- `findAndWatchLatestLog` on the success path: `statSize` is the size
reported by `stat()` on the newly opened file.  A failing `readdir`/
`open` is the `discoverFail` action (the `catch` leaves the state as
modelled here). -/
def findAndWatchLatestLog (s : WState) (listing : List String) (statSize : Nat) :
    WState :=
  match latestLogFile listing with
  | none => s
  | some latest =>
    if s.currentLogFile = some latest then s
    else { s with
            currentLogFile := some latest
            handleOpen := true
            readPosition := statSize }

/-- `start()`: no-op when already watching; otherwise clear the seen-set,
set the flag and adopt the latest log file. -/
def startW (s : WState) (listing : List String) (statSize : Nat) : WState :=
  if s.isWatching then s
  else findAndWatchLatestLog { s with isWatching := true, seenErrors := [] }
    listing statSize

/-- `stop()`. -/
def stopW (_s : WState) : WState :=
  { isWatching := false
    currentLogFile := none
    handleOpen := false
    readPosition := 0
    seenErrors := [] }

/-- The entry guard of `readNewContent` (checked once, before the first
`await`). -/
def readGuard (s : WState) : Bool := s.handleOpen && s.isWatching

/-- The continuation of `readNewContent` after the `read` promise
resolves: advance the offset by the bytes actually read, split the
decoded text on newlines and process each non-blank line.  The source
performs no re-check of `isWatching` here. -/
def readNewContentComplete (s : WState) (bytesRead : Nat) (content : List Char) :
    WState × List WEv :=
  let s1 := { s with readPosition := s.readPosition + bytesRead }
  let res := processLines s1.seenErrors (splitOnNl content)
  ({ s1 with seenErrors := res.1 }, res.2)

/-- Atomic steps of the watcher as driven by its environment: `start`,
log-file discovery (with the directory listing and the stat size of the
adopted file), a failed discovery, completion of an in-flight read, and
`stop`. -/
inductive WAct where
  | startA : List String → Nat → WAct
  | discover : List String → Nat → WAct
  | discoverFail : WAct
  | readDone : Nat → List Char → WAct
  | stopA : WAct

def wstep (s : WState) : WAct → WState × List WEv
  | .startA listing statSize => (startW s listing statSize, [])
  | .discover listing statSize => (findAndWatchLatestLog s listing statSize, [])
  | .discoverFail => (s, [])
  | .readDone bytesRead content => readNewContentComplete s bytesRead content
  | .stopA => (stopW s, [])

/-- The size reported for the adopted file by a discovery action, if the
action adopts one. -/
def adoptedSize : WAct → Option Nat
  | .startA _ statSize => some statSize
  | .discover _ statSize => some statSize
  | _ => none

/-- Specification-side reading of the rule loop: the first rule whose
pattern matches and whose dedup key is fresh fires. -/
def fireResult (seen : List String) (line : List Char) (r : LogRule) :
    Option OpenCodeLogError :=
  match r.pat line with
  | none => none
  | some m =>
    let info := r.extract m
    if seen.contains (errorKey info (sessionOf line)) then none
    else some (buildError info line)

/-- The spec's sample error line: OpenAI provider, session `s1`, the
`ERROR` marker, an embedded `"status":401` and `Incorrect API key`. -/
def sampleErrorLine : List Char :=
  "svc t +1ms service=s1 providerID=openai sessionID=s1 ERROR \"status\":401 Incorrect API key".toList

/-- A line matching only the first rule of the table (same session id). -/
def sampleAuthLine : List Char :=
  "x ERROR sessionID=s1 openai Incorrect API key".toList

/-- An error-bearing line used for the stop-interleaving trace. -/
def sampleStopLine : List Char :=
  "x ERROR openai Incorrect API key".toList

/-! ### InteractionBroker (PermissionRequestHandler), modelled from the spec

Only the `PermissionHandlerAPI` interface of the handler is present under
`src/` (`types/permission-handler.ts`); the implementation class is not.
The broker is therefore modelled from §4.2 of the specification. -/

/-- Modelled from the spec: the kind of one pending interaction
(`kind (permission | question)` of a `PendingInteraction`). -/
inductive PKind where
  | permission
  | question
  deriving DecidableEq

/-- Modelled from the spec: the response payload of a question dialog
(`QuestionResponseData`); only the `denied` flag matters to the claims —
a timeout resolves a question to a declined response. -/
structure QuestionResponseData where
  denied : Bool
  deriving DecidableEq

/-- Modelled from the spec: the value with which a pending interaction's
future is settled. -/
inductive SettleOutcome where
  | permOutcome : Bool → SettleOutcome
  | questOutcome : QuestionResponseData → SettleOutcome
  deriving DecidableEq

/-- Modelled from the spec: broker state — the fresh-id counter, the
pending registry, and the log of settlements (newest first).  A future
can be fulfilled at most once exactly when the settlement log never
repeats an id. -/
structure PState where
  nextId : Nat
  pending : List (Nat × PKind)
  settled : List (Nat × SettleOutcome)
  deriving DecidableEq

def initialPState : PState := ⟨0, [], []⟩

/-- Modelled from the spec: registry lookup by request id. -/
def lookupPending : List (Nat × PKind) → Nat → Option PKind
  | [], _ => none
  | p :: ps, id => if p.1 = id then some p.2 else lookupPending ps id

/-- Modelled from the spec: registry removal (the `Map.delete` of the
pending record on resolution or timeout). -/
def removePending (ps : List (Nat × PKind)) (id : Nat) : List (Nat × PKind) :=
  ps.filter (fun p => p.1 ≠ id)

/-- Modelled from the spec: the broker's atomic operations — the two
creations, the two explicit resolutions, a timer firing for an id, and
`clearAll`. -/
inductive PAct where
  | createPerm : PAct
  | createQuest : PAct
  | resolvePerm : Nat → Bool → PAct
  | resolveQuest : Nat → QuestionResponseData → PAct
  | fireTimeout : Nat → PAct
  | clearAll : PAct

/-- Modelled from the spec: one broker step.  The boolean is the value
reported to the caller: `resolve*` return whether a pending record was
found and fulfilled; a firing timer settles the record it finds (to
`false` for permissions, to a declined response for questions) and is a
no-op when the record is already gone; `clearAll` removes every pending
record without settling anything. -/
def pstep (s : PState) : PAct → PState × Bool
  | .createPerm =>
    ({ s with
        nextId := s.nextId + 1
        pending := (s.nextId, PKind.permission) :: s.pending }, true)
  | .createQuest =>
    ({ s with
        nextId := s.nextId + 1
        pending := (s.nextId, PKind.question) :: s.pending }, true)
  | .resolvePerm id allowed =>
    match lookupPending s.pending id with
    | some PKind.permission =>
      ({ s with
          pending := removePending s.pending id
          settled := (id, SettleOutcome.permOutcome allowed) :: s.settled }, true)
    | _ => (s, false)
  | .resolveQuest id resp =>
    match lookupPending s.pending id with
    | some PKind.question =>
      ({ s with
          pending := removePending s.pending id
          settled := (id, SettleOutcome.questOutcome resp) :: s.settled }, true)
    | _ => (s, false)
  | .fireTimeout id =>
    match lookupPending s.pending id with
    | some PKind.permission =>
      ({ s with
          pending := removePending s.pending id
          settled := (id, SettleOutcome.permOutcome false) :: s.settled }, true)
    | some PKind.question =>
      ({ s with
          pending := removePending s.pending id
          settled := (id, SettleOutcome.questOutcome ⟨true⟩) :: s.settled }, true)
    | none => (s, false)
  | .clearAll => ({ s with pending := [] }, true)

/-- Modelled from the spec: run a whole trace of broker operations. -/
def runP : PState → List PAct → PState
  | s, [] => s
  | s, a :: as => runP (pstep s a).1 as

/-- Invariant of the broker model: every registered id is below the
counter, pending and settled ids are duplicate-free, and no id is both
pending and settled. -/
def PInv (s : PState) : Prop :=
  (∀ p ∈ s.pending, p.1 < s.nextId) ∧
  (∀ q ∈ s.settled, q.1 < s.nextId) ∧
  (s.pending.map Prod.fst).Nodup ∧
  (s.settled.map Prod.fst).Nodup ∧
  ∀ p ∈ s.pending, ∀ q ∈ s.settled, p.1 ≠ q.1

/-! ### EventValidator (ThoughtStreamHandler), modelled from the spec

Only the `ThoughtStreamAPI` interface and the `ThoughtEvent` /
`ThoughtCategory` types are present under `src/`
(`types/skills-manager.ts`); the implementation of
`validateThoughtEvent` is not, so it is modelled from §4.3 of the
specification. -/

/-- An untyped JS value as received in a raw telemetry payload
(`skills-manager.ts` takes `data: unknown`). -/
inductive DynVal where
  | vstr : String → DynVal
  | vnum : Int → DynVal
  | vbool : Bool → DynVal
  | vnull : DynVal
  deriving DecidableEq

/-- Modelled from the spec: the raw thought payload; a field absent from
the payload is `none`. -/
structure RawThought where
  taskId : Option DynVal
  content : Option DynVal
  category : Option DynVal
  agentName : Option DynVal
  timestamp : Option DynVal
  deriving DecidableEq

/-- The closed `ThoughtCategory` enum of `skills-manager.ts`. -/
inductive ThoughtCategory where
  | observation
  | reasoning
  | decision
  | action
  deriving DecidableEq

/-- The `ThoughtEvent` value object of `skills-manager.ts`. -/
structure ThoughtEvent where
  taskId : String
  content : String
  category : ThoughtCategory
  agentName : String
  timestamp : Int
  deriving DecidableEq

/-- Modelled from the spec: a required string field validates iff it is
a string and non-empty. -/
def asNonemptyStr : Option DynVal → Option String
  | some (DynVal.vstr s) => if s.isEmpty then none else some s
  | _ => none

/-- Modelled from the spec: the category field validates iff it is one
of the four closed enum literals. -/
def asCategory : Option DynVal → Option ThoughtCategory
  | some (DynVal.vstr s) =>
    if s = "observation" then some ThoughtCategory.observation
    else if s = "reasoning" then some ThoughtCategory.reasoning
    else if s = "decision" then some ThoughtCategory.decision
    else if s = "action" then some ThoughtCategory.action
    else none
  | _ => none

/-- Modelled from the spec: the timestamp field validates iff it is
numeric. -/
def asNum : Option DynVal → Option Int
  | some (DynVal.vnum n) => some n
  | _ => none

/-- Modelled from the spec: `validateThoughtEvent(data)` — structural
validation only; returns the populated event when every field validates
and `null` on any violation, without throwing. -/
def validateThoughtEvent (d : RawThought) : Option ThoughtEvent :=
  match asNonemptyStr d.taskId, asNonemptyStr d.content, asCategory d.category,
      asNonemptyStr d.agentName, asNum d.timestamp with
  | some t, some c, some cat, some a, some ts => some ⟨t, c, cat, a, ts⟩
  | _, _, _, _, _ => none

/-- Modelled from the spec: the handler's only state, the active-task
registry. -/
structure TSState where
  activeTasks : List String
  deriving DecidableEq

/-- Modelled from the spec: validation as invoked on a handler instance;
the source contract passes no state into the structural check. -/
def validateThoughtEventIn (_st : TSState) (d : RawThought) : Option ThoughtEvent :=
  validateThoughtEvent d

/-! ### Basic lemmas about the framing scan -/

theorem parseBufferGo_eq_nobrace {buf : List Char} (h : idxOfBrace buf = none) :
    parseBufferGo buf = ([], []) := by
  rw [parseBufferGo]
  split
  · rfl
  · simp_all

theorem parseBufferGo_eq_incomplete {buf : List Char} {i : Nat}
    (h : idxOfBrace buf = some i) (h2 : findJsonEnd (buf.drop i) = none) :
    parseBufferGo buf = ([], buf.drop i) := by
  rw [parseBufferGo]
  split
  · simp_all
  · rename_i j hj
    rw [h] at hj
    cases hj
    simp only [h2]

theorem parseBufferGo_eq_frame {buf : List Char} {i e : Nat}
    (h : idxOfBrace buf = some i) (h2 : findJsonEnd (buf.drop i) = some e) :
    parseBufferGo buf =
      (((buf.drop i).take (e + 1)) :: (parseBufferGo ((buf.drop i).drop (e + 1))).1,
        (parseBufferGo ((buf.drop i).drop (e + 1))).2) := by
  rw [parseBufferGo]
  split
  · simp_all
  · rename_i j hj
    rw [h] at hj
    cases hj
    simp only [h2]

theorem idxOfBrace_eq_none_iff {s : List Char} : idxOfBrace s = none ↔ '{' ∉ s := by
  induction s with
  | nil => simp [idxOfBrace]
  | cons c cs ih =>
    by_cases hc : c = '{'
    · simp [idxOfBrace, hc]
    · simp only [idxOfBrace, hc, if_false, Option.map_eq_none', ih, List.mem_cons]
      constructor
      · intro hn hor
        rcases hor with hor | hor
        · exact hc hor.symm
        · exact hn hor
      · intro hn
        exact fun hm => hn (Or.inr hm)

theorem idxOfBrace_append_of_none {a b : List Char} (h : idxOfBrace a = none) :
    idxOfBrace (a ++ b) = (idxOfBrace b).map (· + a.length) := by
  induction a with
  | nil => cases hb : idxOfBrace b <;> simp [hb]
  | cons c cs ih =>
    rw [List.cons_append]
    by_cases hc : c = '{'
    · subst hc
      simp [idxOfBrace] at h
    · simp only [idxOfBrace, hc, if_false, Option.map_eq_none'] at h
      simp only [idxOfBrace, hc, if_false, ih h]
      cases hb : idxOfBrace b <;> simp [List.length_cons] <;> omega

theorem idxOfBrace_append_of_some {a b : List Char} {i : Nat}
    (h : idxOfBrace a = some i) : idxOfBrace (a ++ b) = some i := by
  induction a generalizing i with
  | nil => simp [idxOfBrace] at h
  | cons c cs ih =>
    rw [List.cons_append]
    by_cases hc : c = '{'
    · simp only [idxOfBrace, hc, if_true] at h ⊢
      exact h
    · simp only [idxOfBrace, hc, if_false, Option.map_eq_some'] at h
      rcases h with ⟨j, hj, rfl⟩
      simp only [idxOfBrace, hc, if_false, ih hj, Option.map_some']

theorem idxOfBrace_drop {s : List Char} {i : Nat} (h : idxOfBrace s = some i) :
    ∃ r, s.drop i = '{' :: r := by
  induction s generalizing i with
  | nil => simp [idxOfBrace] at h
  | cons c cs ih =>
    by_cases hc : c = '{'
    · simp only [idxOfBrace, hc, if_true, Option.some.injEq] at h
      exact ⟨cs, by simp [← h, hc]⟩
    · simp only [idxOfBrace, hc, if_false, Option.map_eq_some'] at h
      rcases h with ⟨j, hj, rfl⟩
      rcases ih hj with ⟨r, hr⟩
      exact ⟨r, by simpa using hr⟩

theorem idxOfBrace_cons_brace (r : List Char) : idxOfBrace ('{' :: r) = some 0 := by
  simp [idxOfBrace]

theorem findJsonEndAux_cons (d : Int) (istr esc : Bool) (i : Nat) (c : Char)
    (cs : List Char) :
    findJsonEndAux d istr esc i (c :: cs) =
      match fjNext d istr esc c with
      | none => some i
      | some st => findJsonEndAux st.1 st.2.1 st.2.2 (i + 1) cs := by
  rw [findJsonEndAux, fjNext]
  split_ifs <;> rfl

theorem fjNext_eq_none {d : Int} {istr esc : Bool} {c : Char}
    (h : fjNext d istr esc c = none) : c = '}' := by
  rw [fjNext] at h
  split_ifs at h
  assumption

theorem findJsonEndAux_append_of_some {a : List Char} {d : Int} {istr esc : Bool}
    {i e : Nat} (h : findJsonEndAux d istr esc i a = some e) (b : List Char) :
    findJsonEndAux d istr esc i (a ++ b) = some e := by
  induction a generalizing d istr esc i with
  | nil => simp [findJsonEndAux] at h
  | cons c cs ih =>
    rw [List.cons_append, findJsonEndAux_cons]
    rw [findJsonEndAux_cons] at h
    cases hn : fjNext d istr esc c with
    | none => rw [hn] at h; exact h
    | some st => rw [hn] at h; exact ih h

theorem findJsonEndAux_none_of_no_rbrace {s : List Char} (hs : '}' ∉ s)
    (d : Int) (istr esc : Bool) (i : Nat) :
    findJsonEndAux d istr esc i s = none := by
  induction s generalizing d istr esc i with
  | nil => simp [findJsonEndAux]
  | cons c cs ih =>
    have hc : c ≠ '}' := fun hcc => hs (hcc ▸ List.mem_cons_self c cs)
    have hcs : '}' ∉ cs := fun hm => hs (List.mem_cons_of_mem c hm)
    rw [findJsonEndAux_cons]
    cases hn : fjNext d istr esc c with
    | none => exact absurd (fjNext_eq_none hn) hc
    | some st => exact ih hcs _ _ _ _

theorem findJsonEndAux_lt_length {s : List Char} {d : Int} {istr esc : Bool}
    {i e : Nat} (h : findJsonEndAux d istr esc i s = some e) :
    e < i + s.length := by
  induction s generalizing d istr esc i with
  | nil => simp [findJsonEndAux] at h
  | cons c cs ih =>
    rw [findJsonEndAux_cons] at h
    cases hn : fjNext d istr esc c with
    | none =>
      rw [hn] at h
      cases h
      simp
    | some st =>
      rw [hn] at h
      have := ih h
      simp only [List.length_cons]
      omega

theorem findJsonEnd_lt_length {s : List Char} {e : Nat}
    (h : findJsonEnd s = some e) : e < s.length := by
  have := findJsonEndAux_lt_length h
  omega

theorem parseBufferGo_tail_normal_aux (n : Nat) :
    ∀ (buf : List Char), buf.length ≤ n →
      (parseBufferGo buf).2 = [] ∨
        ∃ r, (parseBufferGo buf).2 = '{' :: r ∧
          findJsonEnd ((parseBufferGo buf).2) = none := by
  induction n with
  | zero =>
    intro buf hlen
    have hb : buf = [] := List.eq_nil_of_length_eq_zero (Nat.le_zero.mp hlen)
    subst hb
    rw [parseBufferGo_eq_nobrace (by simp [idxOfBrace])]
    exact Or.inl rfl
  | succ n ih =>
    intro buf hlen
    cases h : idxOfBrace buf with
    | none =>
      rw [parseBufferGo_eq_nobrace h]
      exact Or.inl rfl
    | some i =>
      cases h2 : findJsonEnd (buf.drop i) with
      | none =>
        rw [parseBufferGo_eq_incomplete h h2]
        rcases idxOfBrace_drop h with ⟨r, hr⟩
        exact Or.inr ⟨r, hr, h2⟩
      | some e =>
        rw [parseBufferGo_eq_frame h h2]
        have hi := idxOfBrace_lt_length h
        have hrest : ((buf.drop i).drop (e + 1)).length ≤ n := by
          simp only [List.length_drop]
          omega
        simpa using ih _ hrest

/-- The retained tail of `parseBuffer` is empty or an incomplete frame
starting at an opening brace. -/
theorem parseBufferGo_tail_normal (buf : List Char) :
    (parseBufferGo buf).2 = [] ∨
      ∃ r, (parseBufferGo buf).2 = '{' :: r ∧
        findJsonEnd ((parseBufferGo buf).2) = none :=
  parseBufferGo_tail_normal_aux buf.length buf le_rfl

/-- The retained tail is a fixed point of the parse loop. -/
theorem parseBufferGo_tail_fixed (buf : List Char) :
    parseBufferGo ((parseBufferGo buf).2) = ([], (parseBufferGo buf).2) := by
  rcases parseBufferGo_tail_normal buf with h | ⟨r, hr, hend⟩
  · rw [h, parseBufferGo_eq_nobrace (by simp [idxOfBrace])]
  · rw [hr] at hend ⊢
    rw [parseBufferGo_eq_incomplete (idxOfBrace_cons_brace r) (by simpa using hend)]
    simp

theorem parseBufferGo_tail_length_aux (n : Nat) :
    ∀ (buf : List Char), buf.length ≤ n →
      (parseBufferGo buf).2.length ≤ buf.length := by
  induction n with
  | zero =>
    intro buf hlen
    have hb : buf = [] := List.eq_nil_of_length_eq_zero (Nat.le_zero.mp hlen)
    subst hb
    rw [parseBufferGo_eq_nobrace (by simp [idxOfBrace])]
  | succ n ih =>
    intro buf hlen
    cases h : idxOfBrace buf with
    | none => rw [parseBufferGo_eq_nobrace h]; simp
    | some i =>
      cases h2 : findJsonEnd (buf.drop i) with
      | none => rw [parseBufferGo_eq_incomplete h h2]; simp
      | some e =>
        rw [parseBufferGo_eq_frame h h2]
        have hi := idxOfBrace_lt_length h
        have hrest : ((buf.drop i).drop (e + 1)).length ≤ n := by
          simp only [List.length_drop]
          omega
        have := ih _ hrest
        simp only [List.length_drop] at this ⊢
        omega

theorem parseBufferGo_tail_length_le (buf : List Char) :
    (parseBufferGo buf).2.length ≤ buf.length :=
  parseBufferGo_tail_length_aux buf.length buf le_rfl

/-- Skipping the non-JSON head does not change the result of the parse
loop. -/
theorem parseBufferGo_skip {s : List Char} {i : Nat} (h : idxOfBrace s = some i) :
    parseBufferGo s = parseBufferGo (s.drop i) := by
  rcases idxOfBrace_drop h with ⟨r, hr⟩
  have h0 : idxOfBrace (s.drop i) = some 0 := hr ▸ idxOfBrace_cons_brace r
  cases h2 : findJsonEnd (s.drop i) with
  | none =>
    rw [parseBufferGo_eq_incomplete h h2, parseBufferGo_eq_incomplete h0 (by simpa using h2)]
    simp
  | some e =>
    rw [parseBufferGo_eq_frame h h2, parseBufferGo_eq_frame h0 (by simpa using h2)]
    simp

theorem parseBufferGo_append_aux (n : Nat) :
    ∀ (a b : List Char), a.length ≤ n →
      parseBufferGo (a ++ b) =
        ((parseBufferGo a).1 ++ (parseBufferGo ((parseBufferGo a).2 ++ b)).1,
          (parseBufferGo ((parseBufferGo a).2 ++ b)).2) := by
  have base : ∀ (a b : List Char), idxOfBrace a = none →
      parseBufferGo (a ++ b) =
        ((parseBufferGo a).1 ++ (parseBufferGo ((parseBufferGo a).2 ++ b)).1,
          (parseBufferGo ((parseBufferGo a).2 ++ b)).2) := by
    intro a b h
    rw [parseBufferGo_eq_nobrace h]
    simp only [List.nil_append]
    cases hb : idxOfBrace b with
    | none =>
      have hab : idxOfBrace (a ++ b) = none := by
        rw [idxOfBrace_append_of_none h, hb]
        rfl
      rw [parseBufferGo_eq_nobrace hab, parseBufferGo_eq_nobrace hb]
    | some j =>
      have hab : idxOfBrace (a ++ b) = some (j + a.length) := by
        rw [idxOfBrace_append_of_none h, hb]
        rfl
      rw [parseBufferGo_skip hab, parseBufferGo_skip hb]
      have hdrop : (a ++ b).drop (j + a.length) = b.drop j := by
        rw [Nat.add_comm j a.length, List.drop_append]
      rw [hdrop]
  induction n with
  | zero =>
    intro a b hlen
    have ha : a = [] := List.eq_nil_of_length_eq_zero (Nat.le_zero.mp hlen)
    subst ha
    exact base [] b rfl
  | succ n ih =>
    intro a b hlen
    cases h : idxOfBrace a with
    | none => exact base a b h
    | some i =>
      have hi : i < a.length := idxOfBrace_lt_length h
      have hsome : idxOfBrace (a ++ b) = some i := idxOfBrace_append_of_some h
      have hdrop : (a ++ b).drop i = a.drop i ++ b :=
        List.drop_append_of_le_length (Nat.le_of_lt hi)
      cases h2 : findJsonEnd (a.drop i) with
      | none =>
        rw [parseBufferGo_eq_incomplete h h2]
        rw [parseBufferGo_skip hsome, hdrop]
        simp
      | some e =>
        rw [parseBufferGo_eq_frame h h2]
        have he : e + 1 ≤ (a.drop i).length := findJsonEnd_lt_length h2
        have h2' : findJsonEnd ((a ++ b).drop i) = some e := by
          rw [hdrop]
          exact findJsonEndAux_append_of_some h2 b
        have hrest : ((a.drop i).drop (e + 1)).length ≤ n := by
          simp only [List.length_drop]
          omega
        rw [parseBufferGo_eq_frame hsome h2', hdrop,
          List.take_append_of_le_length he, List.drop_append_of_le_length he,
          ih _ b hrest]
        simp

/-- Compositionality of the parse loop over concatenation: the frames of
`a ++ b` are the frames of `a` followed by the frames of the retained
tail of `a` glued to `b`. -/
theorem parseBufferGo_append (a b : List Char) :
    parseBufferGo (a ++ b) =
      ((parseBufferGo a).1 ++ (parseBufferGo ((parseBufferGo a).2 ++ b)).1,
        (parseBufferGo ((parseBufferGo a).2 ++ b)).2) :=
  parseBufferGo_append_aux a.length a b le_rfl

/-! ### The scanner walks over a serialized JSON value without stopping -/

theorem findJsonEndAux_pass_plain {c : Char} (h1 : c ≠ '"') (h2 : c ≠ '{')
    (h3 : c ≠ '}') (d : Int) (i : Nat) (cs : List Char) :
    findJsonEndAux d false false i (c :: cs) =
      findJsonEndAux d false false (i + 1) cs := by
  rw [findJsonEndAux_cons]
  have hn : fjNext d false false c = some (d, false, false) := by
    simp [fjNext, h1, h2, h3]
  rw [hn]

theorem findJsonEndAux_pass_instring {c : Char} (h1 : c ≠ '"') (h2 : c ≠ '\\')
    (d : Int) (i : Nat) (cs : List Char) :
    findJsonEndAux d true false i (c :: cs) =
      findJsonEndAux d true false (i + 1) cs := by
  rw [findJsonEndAux_cons]
  have hn : fjNext d true false c = some (d, true, false) := by
    simp [fjNext, h1, h2]
  rw [hn]

theorem findJsonEndAux_pass_escaped (x : Char) (d : Int) (i : Nat) (cs : List Char) :
    findJsonEndAux d true false i ('\\' :: x :: cs) =
      findJsonEndAux d true false (i + 2) cs := by
  rw [findJsonEndAux_cons]
  have hn : fjNext d true false '\\' = some (d, true, true) := by
    simp [fjNext]
  rw [hn]
  show findJsonEndAux d true true (i + 1) (x :: cs) =
    findJsonEndAux d true false (i + 2) cs
  rw [findJsonEndAux_cons]
  have hn2 : fjNext d true true x = some (d, true, false) := by
    simp [fjNext]
  rw [hn2]

theorem findJsonEndAux_pass_quote (d : Int) (istr : Bool) (i : Nat) (cs : List Char) :
    findJsonEndAux d istr false i ('"' :: cs) =
      findJsonEndAux d (!istr) false (i + 1) cs := by
  rw [findJsonEndAux_cons]
  have hn : fjNext d istr false '"' = some (d, !istr, false) := by
    by_cases h : istr = true <;> simp [fjNext, h]
  rw [hn]

theorem findJsonEndAux_pass_lbrace (d : Int) (i : Nat) (cs : List Char) :
    findJsonEndAux d false false i ('{' :: cs) =
      findJsonEndAux (d + 1) false false (i + 1) cs := by
  rw [findJsonEndAux_cons]
  have hn : fjNext d false false '{' = some (d + 1, false, false) := by
    simp [fjNext]
  rw [hn]

theorem findJsonEndAux_pass_rbrace {d : Int} (hd : d - 1 ≠ 0) (i : Nat)
    (cs : List Char) :
    findJsonEndAux d false false i ('}' :: cs) =
      findJsonEndAux (d - 1) false false (i + 1) cs := by
  rw [findJsonEndAux_cons]
  have hn : fjNext d false false '}' = some (d - 1, false, false) := by
    simp [fjNext, hd]
  rw [hn]

theorem findJsonEndAux_stop_rbrace {d : Int} (hd : d - 1 = 0) (i : Nat)
    (cs : List Char) :
    findJsonEndAux d false false i ('}' :: cs) = some i := by
  rw [findJsonEndAux_cons]
  have hn : fjNext d false false '}' = none := by
    simp [fjNext, hd]
  rw [hn]

theorem findJsonEndAux_pass_list {l : List Char}
    (hl : ∀ c ∈ l, c ≠ '"' ∧ c ≠ '{' ∧ c ≠ '}') (d : Int) (i : Nat)
    (rest : List Char) :
    findJsonEndAux d false false i (l ++ rest) =
      findJsonEndAux d false false (i + l.length) rest := by
  induction l generalizing i with
  | nil => simp
  | cons c cs ih =>
    have hc := hl c (List.mem_cons_self c cs)
    have hcs : ∀ x ∈ cs, x ≠ '"' ∧ x ≠ '{' ∧ x ≠ '}' :=
      fun x hx => hl x (List.mem_cons_of_mem c hx)
    rw [List.cons_append, findJsonEndAux_pass_plain hc.1 hc.2.1 hc.2.2, ih hcs]
    simp only [List.length_cons]
    congr 1
    omega

theorem escStr_scan_pass (s : List Char) (d : Int) (i : Nat) (rest : List Char) :
    findJsonEndAux d true false i (escStr s ++ rest) =
      findJsonEndAux d true false (i + (escStr s).length) rest := by
  induction s generalizing i with
  | nil => simp [escStr]
  | cons c cs ih =>
    have hsplit : escStr (c :: cs) = escChar c ++ escStr cs := by
      simp [escStr]
    rw [hsplit]
    by_cases h1 : c = '"'
    · subst h1
      rw [show escChar '"' = ['\\', '"'] from rfl]
      rw [List.append_assoc, List.cons_append, List.cons_append, List.nil_append,
        findJsonEndAux_pass_escaped, ih]
      simp only [List.length_append, List.length_cons, List.length_nil]
      congr 1
      omega
    · by_cases h2 : c = '\\'
      · subst h2
        rw [show escChar '\\' = ['\\', '\\'] from rfl]
        rw [List.append_assoc, List.cons_append, List.cons_append, List.nil_append,
          findJsonEndAux_pass_escaped, ih]
        simp only [List.length_append, List.length_cons, List.length_nil]
        congr 1
        omega
      · by_cases h3 : c = '\n'
        · subst h3
          rw [show escChar '\n' = ['\\', 'n'] from rfl]
          rw [List.append_assoc, List.cons_append, List.cons_append, List.nil_append,
            findJsonEndAux_pass_escaped, ih]
          simp only [List.length_append, List.length_cons, List.length_nil]
          congr 1
          omega
        · by_cases h4 : c = '\r'
          · subst h4
            rw [show escChar '\r' = ['\\', 'r'] from rfl]
            rw [List.append_assoc, List.cons_append, List.cons_append, List.nil_append,
              findJsonEndAux_pass_escaped, ih]
            simp only [List.length_append, List.length_cons, List.length_nil]
            congr 1
            omega
          · have hc : escChar c = [c] := by simp [escChar, h1, h2, h3, h4]
            rw [hc, List.append_assoc, List.singleton_append,
              findJsonEndAux_pass_instring h1 h2, ih]
            simp only [List.length_append, List.length_cons, List.length_nil]
            congr 1
            omega

theorem serStr_scan_pass (s : List Char) (d : Int) (i : Nat) (rest : List Char) :
    findJsonEndAux d false false i (serStr s ++ rest) =
      findJsonEndAux d false false (i + (serStr s).length) rest := by
  rw [serStr, List.append_assoc, List.cons_append, findJsonEndAux_pass_quote,
    List.singleton_append]
  simp only [Bool.not_false]
  rw [escStr_scan_pass, findJsonEndAux_pass_quote]
  simp only [Bool.not_true, List.length_append, List.length_cons, List.length_nil]
  congr 1
  omega

theorem digitToChar_plain (k : Nat) :
    digitToChar k ≠ '"' ∧ digitToChar k ≠ '{' ∧ digitToChar k ≠ '}' := by
  unfold digitToChar
  split <;> exact (by decide)

theorem serNat_plain (n : Nat) :
    ∀ c ∈ serNat n, c ≠ '"' ∧ c ≠ '{' ∧ c ≠ '}' := by
  intro c hc
  unfold serNat at hc
  by_cases hn : n = 0
  · simp [hn] at hc
    subst hc
    exact (by decide)
  · simp only [hn, if_false, List.mem_map, List.mem_reverse] at hc
    rcases hc with ⟨k, _, rfl⟩
    exact digitToChar_plain k

mutual
theorem serialize_scan_pass (v : Json) : ∀ (d : Int), 1 ≤ d →
    ∀ (i : Nat) (rest : List Char),
      findJsonEndAux d false false i (serialize v ++ rest) =
        findJsonEndAux d false false (i + (serialize v).length) rest := by
  intro d hd i rest
  cases v with
  | str s => rw [show serialize (.str s) = serStr s from rfl, serStr_scan_pass]
  | num n =>
    rw [show serialize (.num n) = serNat n from rfl,
      findJsonEndAux_pass_list (serNat_plain n)]
  | boolean b =>
    cases b with
    | true =>
      rw [show serialize (.boolean true) = ['t', 'r', 'u', 'e'] from rfl,
        findJsonEndAux_pass_list (by decide)]
    | false =>
      rw [show serialize (.boolean false) = ['f', 'a', 'l', 's', 'e'] from rfl,
        findJsonEndAux_pass_list (by decide)]
  | null =>
    rw [show serialize .null = ['n', 'u', 'l', 'l'] from rfl,
      findJsonEndAux_pass_list (by decide)]
  | arr a =>
    rw [show serialize (.arr a) = ('[' :: serArrBody a) ++ [']'] from rfl,
      List.append_assoc, List.cons_append,
      findJsonEndAux_pass_plain (by decide) (by decide) (by decide),
      serArrBody_scan_pass a d hd, List.singleton_append,
      findJsonEndAux_pass_plain (by decide) (by decide) (by decide)]
    congr 1
    simp only [List.length_append, List.length_cons, List.length_nil]
    omega
  | obj o =>
    rw [show serialize (.obj o) = ('{' :: serObjBody o) ++ ['}'] from rfl,
      List.append_assoc, List.cons_append, findJsonEndAux_pass_lbrace,
      serObjBody_scan_pass o (d + 1) (by omega), List.singleton_append,
      findJsonEndAux_pass_rbrace (by omega)]
    have hdd : d + 1 - 1 = d := by omega
    rw [hdd]
    congr 1
    simp only [List.length_append, List.length_cons, List.length_nil]
    omega
theorem serArrBody_scan_pass (a : JsonArr) : ∀ (d : Int), 1 ≤ d →
    ∀ (i : Nat) (rest : List Char),
      findJsonEndAux d false false i (serArrBody a ++ rest) =
        findJsonEndAux d false false (i + (serArrBody a).length) rest := by
  intro d hd i rest
  cases a with
  | nil => simp [serArrBody]
  | cons v tl =>
    cases tl with
    | nil =>
      rw [show serArrBody (.cons v .nil) = serialize v from rfl,
        serialize_scan_pass v d hd]
    | cons w tl2 =>
      rw [show serArrBody (.cons v (.cons w tl2)) =
          serialize v ++ ',' :: serArrBody (.cons w tl2) from rfl,
        List.append_assoc, serialize_scan_pass v d hd, List.cons_append,
        findJsonEndAux_pass_plain (by decide) (by decide) (by decide),
        serArrBody_scan_pass (.cons w tl2) d hd]
      congr 1
      simp only [List.length_append, List.length_cons]
      omega
theorem serObjBody_scan_pass (o : JsonObj) : ∀ (d : Int), 1 ≤ d →
    ∀ (i : Nat) (rest : List Char),
      findJsonEndAux d false false i (serObjBody o ++ rest) =
        findJsonEndAux d false false (i + (serObjBody o).length) rest := by
  intro d hd i rest
  cases o with
  | nil => simp [serObjBody]
  | cons k v tl =>
    cases tl with
    | nil =>
      rw [show serObjBody (.cons k v .nil) = serStr k ++ ':' :: serialize v from rfl,
        List.append_assoc, serStr_scan_pass, List.cons_append,
        findJsonEndAux_pass_plain (by decide) (by decide) (by decide),
        serialize_scan_pass v d hd]
      congr 1
      simp only [List.length_append, List.length_cons]
      omega
    | cons k2 w tl2 =>
      rw [show serObjBody (.cons k v (.cons k2 w tl2)) =
          serStr k ++ ':' :: serialize v ++ ',' :: serObjBody (.cons k2 w tl2)
          from rfl]
      rw [List.append_assoc, List.append_assoc, serStr_scan_pass,
        List.cons_append, findJsonEndAux_pass_plain (by decide) (by decide) (by decide),
        serialize_scan_pass v d hd, List.cons_append,
        findJsonEndAux_pass_plain (by decide) (by decide) (by decide),
        serObjBody_scan_pass (.cons k2 w tl2) d hd]
      congr 1
      simp only [List.length_append, List.length_cons]
      omega
end

/-! ### Roundtrip: the modelled JSON.parse decodes the serializer's output -/

theorem parseStrBody_escStr (s : List Char) (rest : List Char) :
    parseStrBody (escStr s ++ '"' :: rest) = some (s, rest) := by
  induction s with
  | nil =>
    rw [show escStr [] = [] from rfl, List.nil_append, parseStrBody.eq_def]
    simp
  | cons c cs ih =>
    have hsplit : escStr (c :: cs) = escChar c ++ escStr cs := by simp [escStr]
    rw [hsplit, List.append_assoc]
    by_cases h1 : c = '"'
    · subst h1
      rw [show escChar '"' = ['\\', '"'] from rfl]
      simp only [List.cons_append, List.nil_append]
      rw [parseStrBody]
      rw [if_neg (by decide), if_pos rfl]
      simp [unescChar, ih]
    · by_cases h2 : c = '\\'
      · subst h2
        rw [show escChar '\\' = ['\\', '\\'] from rfl]
        simp only [List.cons_append, List.nil_append]
        rw [parseStrBody]
        rw [if_neg (by decide), if_pos rfl]
        simp [unescChar, ih]
      · by_cases h3 : c = '\n'
        · subst h3
          rw [show escChar '\n' = ['\\', 'n'] from rfl]
          simp only [List.cons_append, List.nil_append]
          rw [parseStrBody]
          rw [if_neg (by decide), if_pos rfl]
          simp [unescChar, ih]
        · by_cases h4 : c = '\r'
          · subst h4
            rw [show escChar '\r' = ['\\', 'r'] from rfl]
            simp only [List.cons_append, List.nil_append]
            rw [parseStrBody]
            rw [if_neg (by decide), if_pos rfl]
            simp [unescChar, ih]
          · have hc : escChar c = [c] := by simp [escChar, h1, h2, h3, h4]
            rw [hc, List.singleton_append, parseStrBody.eq_def]
            simp [h1, h2, ih]

theorem digitToChar_isDigit (k : Nat) : (digitToChar k).isDigit = true := by
  unfold digitToChar
  split <;> decide

theorem digitToChar_toNat {k : Nat} (h : k < 10) : (digitToChar k).toNat - 48 = k := by
  interval_cases k <;> decide

theorem serNat_isDigit (n : Nat) : ∀ c ∈ serNat n, c.isDigit = true := by
  intro c hc
  unfold serNat at hc
  by_cases hn : n = 0
  · simp [hn] at hc
    subst hc
    decide
  · simp only [hn, if_false, List.mem_map, List.mem_reverse] at hc
    rcases hc with ⟨k, _, rfl⟩
    exact digitToChar_isDigit k

theorem takeWhile_all {α : Type} {p : α → Bool} {l : List α}
    (h : ∀ a ∈ l, p a = true) : l.takeWhile p = l := by
  induction l with
  | nil => rfl
  | cons a l ih =>
    rw [List.takeWhile_cons, h a (List.mem_cons_self a l), if_pos rfl,
      ih fun x hx => h x (List.mem_cons_of_mem a hx)]

theorem dropWhile_all {α : Type} {p : α → Bool} {l : List α}
    (h : ∀ a ∈ l, p a = true) : l.dropWhile p = [] := by
  induction l with
  | nil => rfl
  | cons a l ih =>
    rw [List.dropWhile_cons, h a (List.mem_cons_self a l)]
    simp only [if_true]
    exact ih fun x hx => h x (List.mem_cons_of_mem a hx)

theorem takeWhile_digits_append {n : Nat} {rest : List Char}
    (hrest : firstNotDigit rest) :
    (serNat n ++ rest).takeWhile Char.isDigit = serNat n := by
  rw [List.takeWhile_append, takeWhile_all (serNat_isDigit n)]
  simp only [if_pos rfl]
  cases rest with
  | nil => simp
  | cons c r =>
    have := hrest c rfl
    rw [List.takeWhile_cons, this]
    simp

theorem dropWhile_digits_append {n : Nat} {rest : List Char}
    (hrest : firstNotDigit rest) :
    (serNat n ++ rest).dropWhile Char.isDigit = rest := by
  rw [List.dropWhile_append, dropWhile_all (serNat_isDigit n)]
  simp only [List.isEmpty_nil, if_true]
  cases rest with
  | nil => simp
  | cons c r =>
    have := hrest c rfl
    rw [List.dropWhile_cons, this]
    simp

theorem digitsVal_append (A B : List Char) :
    digitsVal (A ++ B) =
      List.foldl (fun a c => 10 * a + (c.toNat - 48)) (digitsVal A) B := by
  unfold digitsVal
  rw [List.foldl_append]

theorem digitsVal_rev_map (L : List Nat) (h : ∀ d ∈ L, d < 10) :
    digitsVal (L.reverse.map digitToChar) = Nat.ofDigits 10 L := by
  induction L with
  | nil => simp [digitsVal, Nat.ofDigits]
  | cons d L ih =>
    have hd10 : d < 10 := h d (List.mem_cons_self d L)
    have hL : ∀ x ∈ L, x < 10 := fun x hx => h x (List.mem_cons_of_mem d hx)
    rw [List.reverse_cons, List.map_append, digitsVal_append, ih hL]
    simp only [List.map_cons, List.map_nil, List.foldl_cons, List.foldl_nil]
    rw [digitToChar_toNat hd10, Nat.ofDigits_cons]
    omega

theorem digitsVal_serNat (n : Nat) : digitsVal (serNat n) = n := by
  unfold serNat
  by_cases hn : n = 0
  · subst hn
    decide
  · simp only [hn, if_false]
    rw [digitsVal_rev_map (Nat.digits 10 n)
      (fun d hd => Nat.digits_lt_base (by norm_num) hd), Nat.ofDigits_digits]

theorem digitToChar_mem (k : Nat) :
    digitToChar k ∈ ['0', '1', '2', '3', '4', '5', '6', '7', '8', '9'] := by
  unfold digitToChar
  split <;> decide

theorem isDigit_not_special {c : Char} (h : c.isDigit = true) :
    c ≠ '"' ∧ c ≠ 't' ∧ c ≠ 'f' ∧ c ≠ 'n' ∧ c ≠ '[' ∧ c ≠ '{' := by
  refine ⟨?_, ?_, ?_, ?_, ?_, ?_⟩ <;>
    exact fun hc => absurd h (by subst hc; decide)

theorem serNat_cons (n : Nat) :
    ∃ c cs, serNat n = c :: cs ∧ c.isDigit = true := by
  unfold serNat
  by_cases hn : n = 0
  · exact ⟨'0', [], by simp [hn], by decide⟩
  · have hne : Nat.digits 10 n ≠ [] := Nat.digits_ne_nil_iff_ne_zero.mpr hn
    cases hrev : (Nat.digits 10 n).reverse with
    | nil => exact absurd (List.reverse_eq_nil_iff.mp hrev) hne
    | cons d t =>
      refine ⟨digitToChar d, t.map digitToChar, ?_, digitToChar_isDigit d⟩
      simp [hn, hrev]

/-- Every serialized value is nonempty and starts with a character other
than a closing bracket, a closing brace, a comma or a colon. -/
theorem serialize_cons (v : Json) :
    ∃ c cs, serialize v = c :: cs ∧ c ≠ ']' ∧ c ≠ '}' ∧ c ≠ ',' ∧ c ≠ ':' := by
  cases v with
  | str s =>
    exact ⟨'"', escStr s ++ ['"'],
      by rw [show serialize (.str s) = ('"' :: escStr s) ++ ['"'] from rfl,
        List.cons_append], by decide, by decide, by decide, by decide⟩
  | num n =>
    rcases serNat_cons n with ⟨c, cs, hser, hdig⟩
    refine ⟨c, cs,
      by rw [show serialize (.num n) = serNat n from rfl, hser], ?_, ?_, ?_, ?_⟩ <;>
      exact fun hc => absurd hdig (by subst hc; decide)
  | boolean b => cases b with
    | true => exact ⟨'t', ['r', 'u', 'e'], rfl, by decide, by decide, by decide, by decide⟩
    | false => exact ⟨'f', ['a', 'l', 's', 'e'], rfl, by decide, by decide, by decide, by decide⟩
  | null => exact ⟨'n', ['u', 'l', 'l'], rfl, by decide, by decide, by decide, by decide⟩
  | arr a =>
    exact ⟨'[', serArrBody a ++ [']'],
      by rw [show serialize (.arr a) = ('[' :: serArrBody a) ++ [']'] from rfl,
        List.cons_append], by decide, by decide, by decide, by decide⟩
  | obj o =>
    exact ⟨'{', serObjBody o ++ ['}'],
      by rw [show serialize (.obj o) = ('{' :: serObjBody o) ++ ['}'] from rfl,
        List.cons_append], by decide, by decide, by decide, by decide⟩

theorem serialize_length_pos (v : Json) : 1 ≤ (serialize v).length := by
  rcases serialize_cons v with ⟨c, cs, h, -, -, -, -⟩
  rw [h]
  simp

theorem firstNotDigit_cons {c : Char} (h : c.isDigit = false) (X : List Char) :
    firstNotDigit (c :: X) := by
  intro d hd
  simp only [List.head?_cons, Option.some.injEq] at hd
  subst hd
  exact h

theorem parseV_str (s : List Char) (f : Nat) (rest : List Char) :
    parseV (f + 1) (serStr s ++ rest) = some (Json.str s, rest) := by
  have hshape : serStr s ++ rest = '"' :: (escStr s ++ '"' :: rest) := by
    rw [serStr, List.cons_append, List.cons_append, List.append_assoc,
      List.singleton_append]
  rw [hshape, parseV.eq_def]
  simp [parseStrBody_escStr]

theorem parseV_num (n : Nat) (f : Nat) (rest : List Char)
    (hrest : firstNotDigit rest) :
    parseV (f + 1) (serNat n ++ rest) = some (Json.num n, rest) := by
  rcases serNat_cons n with ⟨c, cs, hser, hdig⟩
  rcases isDigit_not_special hdig with ⟨h1, h2, h3, h4, h5, h6⟩
  rw [hser, List.cons_append, parseV.eq_def]
  simp only [h1, h2, h3, h4, h5, h6, hdig, if_false, if_true, ite_true, ite_false,
    if_neg, if_pos]
  rw [← List.cons_append, ← hser, takeWhile_digits_append hrest,
    dropWhile_digits_append hrest, digitsVal_serNat]

theorem parseV_true (f : Nat) (rest : List Char) :
    parseV (f + 1) (['t', 'r', 'u', 'e'] ++ rest) = some (Json.boolean true, rest) := by
  simp only [List.cons_append, List.nil_append]
  rw [parseV.eq_def]
  simp [List.take, List.drop]

theorem parseV_false (f : Nat) (rest : List Char) :
    parseV (f + 1) (['f', 'a', 'l', 's', 'e'] ++ rest) =
      some (Json.boolean false, rest) := by
  simp only [List.cons_append, List.nil_append]
  rw [parseV.eq_def]
  simp [List.take, List.drop]

theorem parseV_null (f : Nat) (rest : List Char) :
    parseV (f + 1) (['n', 'u', 'l', 'l'] ++ rest) = some (Json.null, rest) := by
  simp only [List.cons_append, List.nil_append]
  rw [parseV.eq_def]
  simp [List.take, List.drop]

theorem length_serialize_arr (a : JsonArr) :
    (serialize (.arr a)).length = (serArrBody a).length + 2 := by
  rw [show serialize (.arr a) = ('[' :: serArrBody a) ++ [']'] from rfl]
  simp

theorem length_serialize_obj (o : JsonObj) :
    (serialize (.obj o)).length = (serObjBody o).length + 2 := by
  rw [show serialize (.obj o) = ('{' :: serObjBody o) ++ ['}'] from rfl]
  simp

theorem length_serArrBody_cons_cons (v : Json) (w : Json) (tl2 : JsonArr) :
    (serArrBody (.cons v (.cons w tl2))).length =
      (serialize v).length + 1 + (serArrBody (.cons w tl2)).length := by
  rw [show serArrBody (.cons v (.cons w tl2)) =
    serialize v ++ ',' :: serArrBody (.cons w tl2) from rfl]
  simp only [List.length_append, List.length_cons]
  omega

theorem length_serObjBody_cons_nil (k : List Char) (v : Json) :
    (serObjBody (.cons k v .nil)).length = (serStr k).length + 1 + (serialize v).length := by
  rw [show serObjBody (.cons k v .nil) = serStr k ++ ':' :: serialize v from rfl]
  simp only [List.length_append, List.length_cons]
  omega

theorem length_serObjBody_cons_cons (k : List Char) (v : Json) (k2 : List Char)
    (w : Json) (tl2 : JsonObj) :
    (serObjBody (.cons k v (.cons k2 w tl2))).length =
      (serStr k).length + 1 + (serialize v).length + 1 +
        (serObjBody (.cons k2 w tl2)).length := by
  rw [show serObjBody (.cons k v (.cons k2 w tl2)) =
    serStr k ++ ':' :: serialize v ++ ',' :: serObjBody (.cons k2 w tl2) from rfl]
  simp only [List.length_append, List.length_cons]
  omega

theorem parseElems_succ (f : Nat) (s : List Char) :
    parseElems (f + 1) s =
      match parseV f s with
      | none => none
      | some (v, r) =>
        if r.head? = some ',' then
          match parseElems f (r.drop 1) with
          | some p => some (JsonArr.cons v p.1, p.2)
          | none => none
        else if r.head? = some ']' then some (JsonArr.cons v JsonArr.nil, r.drop 1)
        else none := rfl

theorem parseMembers_succ_cons (f : Nat) (c : Char) (r : List Char) :
    parseMembers (f + 1) (c :: r) =
      (if c = '"' then
        match parseStrBody r with
        | none => none
        | some (k, r2) =>
          if r2.head? = some ':' then
            match parseV f (r2.drop 1) with
            | none => none
            | some (v, r4) =>
              if r4.head? = some ',' then
                match parseMembers f (r4.drop 1) with
                | some p => some (JsonObj.cons k v p.1, p.2)
                | none => none
              else if r4.head? = some '}' then
                some (JsonObj.cons k v JsonObj.nil, r4.drop 1)
              else none
          else none
      else none) := rfl

mutual
theorem parseV_serialize (v : Json) : ∀ (fuel : Nat) (rest : List Char),
    (serialize v).length ≤ fuel →
    (∀ n, v = Json.num n → firstNotDigit rest) →
    parseV fuel (serialize v ++ rest) = some (v, rest) := by
  intro fuel rest hfuel hguard
  have hpos := serialize_length_pos v
  obtain ⟨f, rfl⟩ : ∃ f, fuel = f + 1 := ⟨fuel - 1, by omega⟩
  cases v with
  | str s => exact parseV_str s f rest
  | num n => exact parseV_num n f rest (hguard n rfl)
  | boolean b =>
    cases b with
    | true => exact parseV_true f rest
    | false => exact parseV_false f rest
  | null => exact parseV_null f rest
  | arr a =>
    rw [show serialize (.arr a) = ('[' :: serArrBody a) ++ [']'] from rfl,
      List.append_assoc, List.cons_append, List.singleton_append]
    cases a with
    | nil =>
      rw [parseV.eq_def]
      simp [show serArrBody JsonArr.nil = [] from rfl]
    | cons v1 tl =>
      have hlen : (serArrBody (JsonArr.cons v1 tl)).length + 1 ≤ f := by
        have := length_serialize_arr (JsonArr.cons v1 tl)
        omega
      have hhead : (serArrBody (JsonArr.cons v1 tl) ++ ']' :: rest).head? ≠ some ']' := by
        rcases serialize_cons v1 with ⟨c, cs, hv, hne1, -, -, -⟩
        cases tl with
        | nil =>
          rw [show serArrBody (JsonArr.cons v1 .nil) = serialize v1 from rfl, hv,
            List.cons_append]
          simpa using hne1
        | cons w tl2 =>
          rw [show serArrBody (JsonArr.cons v1 (JsonArr.cons w tl2)) =
            serialize v1 ++ ',' :: serArrBody (JsonArr.cons w tl2) from rfl, hv,
            List.cons_append, List.cons_append]
          simpa using hne1
      rw [parseV.eq_def]
      simp only [if_pos rfl, if_neg hhead]
      rw [parseElems_serArrBody (JsonArr.cons v1 tl) f rest hlen (by simp)]
      simp
  | obj o =>
    rw [show serialize (.obj o) = ('{' :: serObjBody o) ++ ['}'] from rfl,
      List.append_assoc, List.cons_append, List.singleton_append]
    cases o with
    | nil =>
      rw [parseV.eq_def]
      simp [show serObjBody JsonObj.nil = [] from rfl]
    | cons k v1 tl =>
      have hlen : (serObjBody (JsonObj.cons k v1 tl)).length + 1 ≤ f := by
        have := length_serialize_obj (JsonObj.cons k v1 tl)
        omega
      have hhead : (serObjBody (JsonObj.cons k v1 tl) ++ '}' :: rest).head? ≠ some '}' := by
        cases tl with
        | nil =>
          rw [show serObjBody (JsonObj.cons k v1 .nil) =
            serStr k ++ ':' :: serialize v1 from rfl, serStr, List.cons_append,
            List.cons_append]
          simp
        | cons k2 w tl2 =>
          rw [show serObjBody (JsonObj.cons k v1 (JsonObj.cons k2 w tl2)) =
            serStr k ++ ':' :: serialize v1 ++ ',' :: serObjBody (JsonObj.cons k2 w tl2)
            from rfl, serStr]
          simp
      rw [parseV.eq_def]
      simp only [if_pos rfl, if_neg hhead]
      rw [parseMembers_serObjBody (JsonObj.cons k v1 tl) f rest hlen (by simp)]
      simp
theorem parseElems_serArrBody (a : JsonArr) : ∀ (fuel : Nat) (rest : List Char),
    (serArrBody a).length + 1 ≤ fuel → a ≠ JsonArr.nil →
    parseElems fuel (serArrBody a ++ ']' :: rest) = some (a, rest) := by
  intro fuel rest hfuel hne
  obtain ⟨f, rfl⟩ : ∃ f, fuel = f + 1 := ⟨fuel - 1, by omega⟩
  cases a with
  | nil => exact absurd rfl hne
  | cons v tl =>
    cases tl with
    | nil =>
      rw [show serArrBody (JsonArr.cons v .nil) = serialize v from rfl] at hfuel ⊢
      rw [parseElems_succ]
      rw [parseV_serialize v f (']' :: rest) (by omega)
        (fun n _ => firstNotDigit_cons (by decide) rest)]
      simp
    | cons w tl2 =>
      have hlen := length_serArrBody_cons_cons v w tl2
      rw [show serArrBody (JsonArr.cons v (JsonArr.cons w tl2)) =
        serialize v ++ ',' :: serArrBody (JsonArr.cons w tl2) from rfl,
        List.append_assoc, List.cons_append]
      rw [parseElems_succ]
      rw [parseV_serialize v f (',' :: (serArrBody (JsonArr.cons w tl2) ++ ']' :: rest))
        (by omega) (fun n _ => firstNotDigit_cons (by decide) _)]
      simp only [List.head?_cons, Option.some.injEq, if_pos rfl, List.drop_one,
        List.tail_cons]
      rw [parseElems_serArrBody (JsonArr.cons w tl2) f rest (by omega) (by simp)]
      simp
theorem parseMembers_serObjBody (o : JsonObj) : ∀ (fuel : Nat) (rest : List Char),
    (serObjBody o).length + 1 ≤ fuel → o ≠ JsonObj.nil →
    parseMembers fuel (serObjBody o ++ '}' :: rest) = some (o, rest) := by
  intro fuel rest hfuel hne
  obtain ⟨f, rfl⟩ : ∃ f, fuel = f + 1 := ⟨fuel - 1, by omega⟩
  cases o with
  | nil => exact absurd rfl hne
  | cons k v tl =>
    cases tl with
    | nil =>
      have hlen := length_serObjBody_cons_nil k v
      have hshape : serObjBody (JsonObj.cons k v .nil) ++ '}' :: rest =
          '"' :: (escStr k ++ '"' :: (':' :: (serialize v ++ '}' :: rest))) := by
        rw [show serObjBody (JsonObj.cons k v .nil) =
          serStr k ++ ':' :: serialize v from rfl, serStr]
        simp [List.cons_append, List.append_assoc]
      rw [hshape, parseMembers_succ_cons]
      simp only [if_pos rfl]
      rw [parseStrBody_escStr]
      simp only [List.head?_cons, Option.some.injEq, if_pos rfl, List.drop_one,
        List.tail_cons]
      rw [parseV_serialize v f ('}' :: rest)
        (by rw [serStr] at hlen; simp at hlen; omega)
        (fun n _ => firstNotDigit_cons (by decide) rest)]
      simp
    | cons k2 w tl2 =>
      have hlen := length_serObjBody_cons_cons k v k2 w tl2
      have hshape : serObjBody (JsonObj.cons k v (JsonObj.cons k2 w tl2)) ++ '}' :: rest =
          '"' :: (escStr k ++ '"' :: (':' :: (serialize v ++
            ',' :: (serObjBody (JsonObj.cons k2 w tl2) ++ '}' :: rest)))) := by
        rw [show serObjBody (JsonObj.cons k v (JsonObj.cons k2 w tl2)) =
          serStr k ++ ':' :: serialize v ++ ',' :: serObjBody (JsonObj.cons k2 w tl2)
          from rfl, serStr]
        simp [List.cons_append, List.append_assoc]
      rw [hshape, parseMembers_succ_cons]
      simp only [if_pos rfl]
      rw [parseStrBody_escStr]
      simp only [List.head?_cons, Option.some.injEq, if_pos rfl, List.drop_one,
        List.tail_cons]
      rw [parseV_serialize v f
        (',' :: (serObjBody (JsonObj.cons k2 w tl2) ++ '}' :: rest))
        (by rw [serStr] at hlen; simp at hlen; omega)
        (fun n _ => firstNotDigit_cons (by decide) _)]
      simp only [List.head?_cons, Option.some.injEq, if_pos rfl, List.drop_one,
        List.tail_cons]
      rw [parseMembers_serObjBody (JsonObj.cons k2 w tl2) f rest
        (by rw [serStr] at hlen; simp at hlen; omega) (by simp)]
      simp
end

theorem jsonParse_serialize_obj (o : JsonObj) :
    jsonParse (serialize (.obj o)) = some (Json.obj o) := by
  unfold jsonParse
  have h := parseV_serialize (.obj o) ((serialize (.obj o)).length + 1) []
    (by omega) (fun n hn => by cases hn)
  rw [List.append_nil] at h
  rw [h]

theorem digitToChar_not_crlf (k : Nat) :
    digitToChar k ≠ '\r' ∧ digitToChar k ≠ '\n' := by
  unfold digitToChar
  split <;> exact (by decide)

theorem serNat_no_crlf (n : Nat) : ∀ c ∈ serNat n, c ≠ '\r' ∧ c ≠ '\n' := by
  intro c hc
  unfold serNat at hc
  by_cases hn : n = 0
  · simp [hn] at hc
    subst hc
    exact (by decide)
  · simp only [hn, if_false, List.mem_map, List.mem_reverse] at hc
    rcases hc with ⟨k, _, rfl⟩
    exact digitToChar_not_crlf k

theorem escStr_no_crlf (s : List Char) : ∀ c ∈ escStr s, c ≠ '\r' ∧ c ≠ '\n' := by
  intro c hc
  unfold escStr at hc
  rw [List.mem_flatMap] at hc
  rcases hc with ⟨x, -, hcx⟩
  unfold escChar at hcx
  by_cases e1 : x = '"'
  · simp [e1] at hcx
    rcases hcx with rfl | rfl <;> exact (by decide)
  · by_cases e2 : x = '\\'
    · simp [e1, e2] at hcx
      rcases hcx with rfl | rfl <;> exact (by decide)
    · by_cases e3 : x = '\n'
      · simp [e1, e2, e3] at hcx
        rcases hcx with rfl | rfl <;> exact (by decide)
      · by_cases e4 : x = '\r'
        · simp [e1, e2, e3, e4] at hcx
          rcases hcx with rfl | rfl <;> exact (by decide)
        · simp [e1, e2, e3, e4] at hcx
          subst hcx
          exact ⟨e4, e3⟩

theorem serStr_no_crlf (s : List Char) : ∀ c ∈ serStr s, c ≠ '\r' ∧ c ≠ '\n' := by
  intro c hc
  rw [serStr, List.mem_append] at hc
  rcases hc with hc | hc
  · rw [List.mem_cons] at hc
    rcases hc with rfl | hc
    · exact (by decide)
    · exact escStr_no_crlf s c hc
  · simp at hc
    subst hc
    exact (by decide)

mutual
theorem serialize_no_crlf (v : Json) : ∀ c ∈ serialize v, c ≠ '\r' ∧ c ≠ '\n' := by
  intro c hc
  cases v with
  | str s => exact serStr_no_crlf s c hc
  | num n => exact serNat_no_crlf n c hc
  | boolean b =>
    cases b with
    | true =>
      rw [show serialize (.boolean true) = ['t', 'r', 'u', 'e'] from rfl] at hc
      simp only [List.mem_cons, List.not_mem_nil, or_false] at hc
      rcases hc with rfl | rfl | rfl | rfl <;> decide
    | false =>
      rw [show serialize (.boolean false) = ['f', 'a', 'l', 's', 'e'] from rfl] at hc
      simp only [List.mem_cons, List.not_mem_nil, or_false] at hc
      rcases hc with rfl | rfl | rfl | rfl | rfl <;> decide
  | null =>
    rw [show serialize .null = ['n', 'u', 'l', 'l'] from rfl] at hc
    simp only [List.mem_cons, List.not_mem_nil, or_false] at hc
    rcases hc with rfl | rfl | rfl | rfl <;> decide
  | arr a =>
    rw [show serialize (.arr a) = ('[' :: serArrBody a) ++ [']'] from rfl,
      List.mem_append, List.mem_cons] at hc
    rcases hc with (rfl | hc) | hc
    · exact (by decide)
    · exact serArrBody_no_crlf a c hc
    · simp at hc
      subst hc
      exact (by decide)
  | obj o =>
    rw [show serialize (.obj o) = ('{' :: serObjBody o) ++ ['}'] from rfl,
      List.mem_append, List.mem_cons] at hc
    rcases hc with (rfl | hc) | hc
    · exact (by decide)
    · exact serObjBody_no_crlf o c hc
    · simp at hc
      subst hc
      exact (by decide)
theorem serArrBody_no_crlf (a : JsonArr) : ∀ c ∈ serArrBody a, c ≠ '\r' ∧ c ≠ '\n' := by
  intro c hc
  cases a with
  | nil => simp [show serArrBody JsonArr.nil = [] from rfl] at hc
  | cons v tl =>
    cases tl with
    | nil =>
      rw [show serArrBody (JsonArr.cons v .nil) = serialize v from rfl] at hc
      exact serialize_no_crlf v c hc
    | cons w tl2 =>
      rw [show serArrBody (JsonArr.cons v (JsonArr.cons w tl2)) =
        serialize v ++ ',' :: serArrBody (JsonArr.cons w tl2) from rfl,
        List.mem_append, List.mem_cons] at hc
      rcases hc with hc | (rfl | hc)
      · exact serialize_no_crlf v c hc
      · exact (by decide)
      · exact serArrBody_no_crlf (JsonArr.cons w tl2) c hc
theorem serObjBody_no_crlf (o : JsonObj) : ∀ c ∈ serObjBody o, c ≠ '\r' ∧ c ≠ '\n' := by
  intro c hc
  cases o with
  | nil => simp [show serObjBody JsonObj.nil = [] from rfl] at hc
  | cons k v tl =>
    cases tl with
    | nil =>
      rw [show serObjBody (JsonObj.cons k v .nil) =
        serStr k ++ ':' :: serialize v from rfl, List.mem_append, List.mem_cons] at hc
      rcases hc with hc | (rfl | hc)
      · exact serStr_no_crlf k c hc
      · exact (by decide)
      · exact serialize_no_crlf v c hc
    | cons k2 w tl2 =>
      rw [show serObjBody (JsonObj.cons k v (JsonObj.cons k2 w tl2)) =
        serStr k ++ ':' :: serialize v ++ ',' :: serObjBody (JsonObj.cons k2 w tl2)
        from rfl] at hc
      rw [List.mem_append, List.mem_append, List.mem_cons, List.mem_cons] at hc
      rcases hc with (hc | (rfl | hc)) | (rfl | hc)
      · exact serStr_no_crlf k c hc
      · exact (by decide)
      · exact serialize_no_crlf v c hc
      · exact (by decide)
      · exact serObjBody_no_crlf (JsonObj.cons k2 w tl2) c hc
end

theorem sanitizeJson_serialize_obj (o : JsonObj) :
    sanitizeJson (serialize (.obj o)) = serialize (.obj o) := by
  unfold sanitizeJson
  rw [List.filter_eq_self]
  intro c hc
  rcases serialize_no_crlf (.obj o) c hc with ⟨h1, h2⟩
  simp [h1, h2]

theorem jsTrim_of_plain_ends {a b : Char} (mid : List Char)
    (ha : jsWhitespace a = false) (hb : jsWhitespace b = false) :
    jsTrim (a :: (mid ++ [b])) = a :: (mid ++ [b]) := by
  unfold jsTrim
  rw [List.dropWhile_cons, ha]
  simp only [Bool.false_eq_true, if_false]
  have hrev : (a :: (mid ++ [b])).reverse = b :: (mid.reverse ++ [a]) := by
    simp
  rw [hrev, List.dropWhile_cons, hb]
  simp only [Bool.false_eq_true, if_false]
  rw [← hrev, List.reverse_reverse]

theorem jsTrim_serialize_obj (o : JsonObj) :
    jsTrim (serialize (.obj o)) = serialize (.obj o) := by
  have hshape : serialize (.obj o) = '{' :: (serObjBody o ++ ['}']) := by
    rw [show serialize (.obj o) = ('{' :: serObjBody o) ++ ['}'] from rfl,
      List.cons_append]
  rw [hshape, jsTrim_of_plain_ends (serObjBody o) (by decide) (by decide)]

/-- A serialized object frame is decoded back to the original object by
the `parseJsonString` stage of StreamParser. -/
theorem parseJsonStringModel_serialize_obj (o : JsonObj) :
    parseJsonStringModel (serialize (.obj o)) = some (Json.obj o) := by
  unfold parseJsonStringModel
  rw [jsTrim_serialize_obj]
  rw [if_neg (by rcases serialize_cons (.obj o) with ⟨c, cs, h, -⟩; simp [h])]
  rw [sanitizeJson_serialize_obj, jsonParse_serialize_obj]

/-! ### Framing a stream of serialized objects with interleaved noise -/

theorem serialize_obj_shape (o : JsonObj) :
    serialize (.obj o) = '{' :: (serObjBody o ++ ['}']) := by
  rw [show serialize (.obj o) = ('{' :: serObjBody o) ++ ['}'] from rfl,
    List.cons_append]

theorem findJsonEnd_serialize_obj (o : JsonObj) (rest : List Char) :
    findJsonEnd (serialize (.obj o) ++ rest) =
      some ((serialize (.obj o)).length - 1) := by
  have hshape : serialize (.obj o) ++ rest = '{' :: (serObjBody o ++ '}' :: rest) := by
    rw [show serialize (.obj o) = ('{' :: serObjBody o) ++ ['}'] from rfl,
      List.append_assoc, List.cons_append, List.singleton_append]
  rw [hshape]
  unfold findJsonEnd
  rw [findJsonEndAux_pass_lbrace]
  have h01 : (0 : Int) + 1 = 1 := by norm_num
  rw [h01, serObjBody_scan_pass o 1 le_rfl,
    findJsonEndAux_stop_rbrace (by norm_num), length_serialize_obj]
  congr 1
  omega

theorem parseBufferGo_interleave (ps : List (JsonObj × List Char)) :
    ∀ (n0 : List Char), '{' ∉ n0 → (∀ p ∈ ps, '{' ∉ p.2) →
      parseBufferGo (interleave n0 ps) =
        (ps.map (fun p => serialize (.obj p.1)), []) := by
  induction ps with
  | nil =>
    intro n0 h0 _
    exact parseBufferGo_eq_nobrace (idxOfBrace_eq_none_iff.mpr h0)
  | cons p ps ih =>
    intro n0 h0 hps
    obtain ⟨o, nn⟩ := p
    rw [show interleave n0 ((o, nn) :: ps) =
      n0 ++ (serialize (.obj o) ++ interleave nn ps) from rfl]
    have hidx0 : idxOfBrace (serialize (.obj o) ++ interleave nn ps) = some 0 := by
      rw [serialize_obj_shape, List.cons_append]
      exact idxOfBrace_cons_brace _
    have hsome : idxOfBrace (n0 ++ (serialize (.obj o) ++ interleave nn ps)) =
        some (0 + n0.length) := by
      rw [idxOfBrace_append_of_none (idxOfBrace_eq_none_iff.mpr h0), hidx0]
      rfl
    rw [parseBufferGo_skip hsome]
    have hdrop : (n0 ++ (serialize (.obj o) ++ interleave nn ps)).drop (0 + n0.length) =
        serialize (.obj o) ++ interleave nn ps := by
      rw [show (0 + n0.length) = n0.length + 0 from by omega, List.drop_append,
        List.drop_zero]
    rw [hdrop]
    have hend : findJsonEnd ((serialize (.obj o) ++ interleave nn ps).drop 0) =
        some ((serialize (.obj o)).length - 1) := by
      rw [List.drop_zero]
      exact findJsonEnd_serialize_obj o _
    rw [parseBufferGo_eq_frame hidx0 hend, List.drop_zero]
    have hlen1 : (serialize (.obj o)).length - 1 + 1 = (serialize (.obj o)).length := by
      have := serialize_length_pos (.obj o)
      omega
    rw [hlen1, List.take_left, List.drop_left]
    rw [ih nn (hps (o, nn) (List.mem_cons_self _ _))
      (fun q hq => hps q (List.mem_cons_of_mem _ hq))]
    simp

/-! ### Feeding chunked input -/

theorem feed_eq (t c : List Char) :
    feed ⟨t⟩ c =
      if MAX_BUFFER_SIZE < (parseBufferGo (t ++ c)).2.length then
        (⟨[]⟩, ((parseBufferGo (t ++ c)).1.filterMap parseJsonStringModel).map
          SPEv.message ++ [SPEv.error])
      else (⟨(parseBufferGo (t ++ c)).2⟩,
        ((parseBufferGo (t ++ c)).1.filterMap parseJsonStringModel).map
          SPEv.message) := rfl

theorem feedAll_no_overflow (chunks : List (List Char)) :
    ∀ (t : List Char), parseBufferGo t = ([], t) →
      (∀ k, k ≤ chunks.length →
        (parseBufferGo (t ++ (chunks.take k).flatten)).2.length ≤ MAX_BUFFER_SIZE) →
      feedAll ⟨t⟩ chunks =
        (⟨(parseBufferGo (t ++ chunks.flatten)).2⟩,
          ((parseBufferGo (t ++ chunks.flatten)).1.filterMap
            parseJsonStringModel).map SPEv.message) := by
  induction chunks with
  | nil =>
    intro t ht _
    simp only [feedAll, List.flatten_nil, List.append_nil, ht]
    rfl
  | cons c cs ih =>
    intro t ht hcap
    have hcap1 : (parseBufferGo (t ++ c)).2.length ≤ MAX_BUFFER_SIZE := by
      have h := hcap 1 (by simp)
      simpa using h
    have hcap2 : ∀ k, k ≤ cs.length →
        (parseBufferGo ((parseBufferGo (t ++ c)).2 ++ (cs.take k).flatten)).2.length ≤
          MAX_BUFFER_SIZE := by
      intro k hk
      have h2 := hcap (k + 1) (by simpa using Nat.succ_le_succ hk)
      have hshape : t ++ ((c :: cs).take (k + 1)).flatten =
          (t ++ c) ++ (cs.take k).flatten := by
        rw [List.take_succ_cons, List.flatten_cons, ← List.append_assoc]
      rw [hshape, parseBufferGo_append (t ++ c) ((cs.take k).flatten)] at h2
      exact h2
    rw [feedAll, feed_eq, if_neg (by omega)]
    rw [ih ((parseBufferGo (t ++ c)).2) (parseBufferGo_tail_fixed _) hcap2]
    have hshape : t ++ (c :: cs).flatten = (t ++ c) ++ cs.flatten := by
      rw [List.flatten_cons, ← List.append_assoc]
    rw [hshape, parseBufferGo_append (t ++ c) cs.flatten]
    simp [List.filterMap_append]

/-- Chunks without any opening brace are discarded whole: the parser
state stays empty and no event is ever emitted. -/
theorem feedAll_noise (chunks : List (List Char))
    (h : ∀ ch ∈ chunks, '{' ∉ ch) : feedAll ⟨[]⟩ chunks = (⟨[]⟩, []) := by
  induction chunks with
  | nil => rfl
  | cons c cs ih =>
    have hc : '{' ∉ c := h c (List.mem_cons_self c cs)
    have hpb : parseBufferGo ([] ++ c) = ([], []) := by
      rw [List.nil_append]
      exact parseBufferGo_eq_nobrace (idxOfBrace_eq_none_iff.mpr hc)
    rw [feedAll, feed_eq, hpb, if_neg (by simp [MAX_BUFFER_SIZE]),
      ih fun x hx => h x (List.mem_cons_of_mem c hx)]
    rfl

/-- A buffer that starts with an opening brace and contains no closing
brace is retained in full. -/
theorem parseBufferGo_open_frame {t : List Char} (h : '}' ∉ t) :
    parseBufferGo ('{' :: t) = ([], '{' :: t) := by
  have hend : findJsonEnd (('{' :: t).drop 0) = none := by
    rw [List.drop_zero]
    exact findJsonEndAux_none_of_no_rbrace
      (by
        intro hm
        rcases List.mem_cons.mp hm with h1 | h1
        · exact absurd h1 (by decide)
        · exact h h1) 0 false false 0
  have := parseBufferGo_eq_incomplete (idxOfBrace_cons_brace t) hend
  rwa [List.drop_zero] at this

/-- Feeding an unclosed top-level frame in chunks: the whole input is
retained until the buffer cap is crossed, at which point one `error` is
emitted and the buffer is cleared; nothing further happens. -/
theorem feedAll_unclosed (chunks : List (List Char)) :
    ∀ (b rest t2 : List Char),
      b ++ (chunks.flatten ++ rest) = '{' :: t2 → '{' ∉ t2 → '}' ∉ t2 →
      (b = [] ∨ ∃ t3, b = '{' :: t3) → b.length ≤ MAX_BUFFER_SIZE →
      feedAll ⟨b⟩ chunks =
        if MAX_BUFFER_SIZE < b.length + chunks.flatten.length
        then (⟨[]⟩, [SPEv.error])
        else (⟨b ++ chunks.flatten⟩, []) := by
  induction chunks with
  | nil =>
    intro b rest t2 hshape h1 h2 hb hblen
    rw [List.flatten_nil, List.length_nil, Nat.add_zero, if_neg (by omega),
      List.append_nil]
    rfl
  | cons c cs ih =>
    intro b rest t2 hshape h1 h2 hb hblen
    have hshape2 : (b ++ c) ++ (cs.flatten ++ rest) = '{' :: t2 := by
      rw [List.flatten_cons] at hshape
      rw [← hshape]
      simp [List.append_assoc]
    by_cases hbc : b ++ c = []
    · have hbnil : b = [] := by
        rcases List.append_eq_nil.mp hbc with ⟨hb1, -⟩
        exact hb1
      have hcnil : c = [] := by
        rcases List.append_eq_nil.mp hbc with ⟨-, hc1⟩
        exact hc1
      have hpb : parseBufferGo (b ++ c) = ([], []) := by
        rw [hbc]
        exact parseBufferGo_eq_nobrace rfl
      rw [feedAll, feed_eq, hpb, if_neg (by simp [MAX_BUFFER_SIZE])]
      have := ih [] rest t2 (by simpa [hbnil, hcnil] using hshape2) h1 h2
        (Or.inl rfl) (by simp [MAX_BUFFER_SIZE])
      rw [this]
      rw [hbnil, hcnil]
      simp
    · -- the accumulated buffer is a nonempty front part of the input
      obtain ⟨t4, hbc4⟩ : ∃ t4, b ++ c = '{' :: t4 := by
        cases hx : b ++ c with
        | nil => exact absurd hx hbc
        | cons x xs =>
          rw [hx] at hshape2
          rw [List.cons_append] at hshape2
          cases hshape2
          exact ⟨xs, rfl⟩
      have ht4 : t4 ++ (cs.flatten ++ rest) = t2 := by
        rw [hbc4, List.cons_append] at hshape2
        exact List.cons.inj hshape2 |>.2
    -- no closing brace inside the retained part
      have ht4r : '}' ∉ t4 := fun hm => h2 (ht4 ▸ List.mem_append_left _ hm)
      have hpb : parseBufferGo (b ++ c) = ([], b ++ c) := by
        rw [hbc4]
        exact parseBufferGo_open_frame ht4r
      by_cases hover : MAX_BUFFER_SIZE < (b ++ c).length
      · -- the cap is crossed now: one error, buffer cleared, rest is noise
        have hnoise : ∀ ch ∈ cs, '{' ∉ ch := by
          intro ch hch hc0
          apply h1
          rw [← ht4]
          apply List.mem_append_right
          apply List.mem_append_left
          rw [List.mem_flatten]
          exact ⟨ch, hch, hc0⟩
        rw [feedAll, feed_eq, hpb, if_pos hover, feedAll_noise cs hnoise]
        have hcond : MAX_BUFFER_SIZE < b.length + (c :: cs).flatten.length := by
          rw [List.length_append] at hover
          rw [List.flatten_cons, List.length_append]
          omega
        rw [if_pos hcond]
        rfl
      · rw [feedAll, feed_eq, hpb, if_neg hover]
        have := ih (b ++ c) rest t2 hshape2 h1 h2 (Or.inr ⟨t4, hbc4⟩) (by omega)
        rw [this]
        have hlen : (b ++ c).length + cs.flatten.length =
            b.length + (c :: cs).flatten.length := by
          rw [List.length_append, List.flatten_cons, List.length_append]
          omega
        rw [hlen]
        by_cases hcond : MAX_BUFFER_SIZE < b.length + (c :: cs).flatten.length
        · rw [if_pos hcond, if_pos hcond]
          rfl
        · rw [if_neg hcond, if_neg hcond, List.flatten_cons, List.append_assoc]
          rfl

/-! ### Claim theorems for the StreamParser -/

/-- C1 counterexample: the claim quantifies over arbitrary interleaved
noise, but noise containing an opening brace breaks framing.  With one
well-formed object `{}` preceded by the noise `"{"`, the concatenation is
`"{{}"`; feeding it as a single chunk emits zero `message` events instead
of the one the claim requires. -/
theorem C1_counterexample :
    interleave ['{'] [(JsonObj.nil, [])] = ['{', '{', '}'] ∧
    (feedAll ⟨[]⟩ [['{', '{', '}']]).2 = [] ∧
    (feedAll ⟨[]⟩ [['{', '{', '}']]).2 ≠
      [SPEv.message (Json.obj JsonObj.nil)] := by
  have h1 : idxOfBrace ['{', '{', '}'] = some 0 := rfl
  have h2 : findJsonEnd (List.drop 0 ['{', '{', '}']) = none := by decide
  have hpb : parseBufferGo ([] ++ ['{', '{', '}']) = ([], ['{', '{', '}']) := by
    rw [List.nil_append]
    have h := parseBufferGo_eq_incomplete h1 h2
    rwa [List.drop_zero] at h
  have hrun : (feedAll ⟨[]⟩ [['{', '{', '}']]).2 = [] := by
    rw [feedAll, feed_eq, hpb, if_neg (by simp [MAX_BUFFER_SIZE])]
    rfl
  exact ⟨rfl, hrun, by rw [hrun]; exact (by simp)⟩

/-- C1 (amended): for every finite list of JSON objects concatenated with
interleaved noise that contains no opening brace, and every chunking of
the concatenation whose total length is within the 10 MiB buffer cap,
feeding the chunks in order emits exactly one `message` event per object,
with payloads equal to the original objects in the original order, and no
error event; the buffer is empty at the end.  In particular objects whose
string values contain brace characters are emitted as one frame. -/
theorem C1_amended_framing (ps : List (JsonObj × List Char)) (n0 : List Char)
    (chunks : List (List Char)) (hn0 : '{' ∉ n0) (hps : ∀ p ∈ ps, '{' ∉ p.2)
    (hsplit : chunks.flatten = interleave n0 ps)
    (hcap : (interleave n0 ps).length ≤ MAX_BUFFER_SIZE) :
    feedAll ⟨[]⟩ chunks =
      (⟨[]⟩, ps.map fun p => SPEv.message (Json.obj p.1)) := by
  have hnormal : parseBufferGo ([] : List Char) = ([], []) :=
    parseBufferGo_eq_nobrace rfl
  have hcapk : ∀ k, k ≤ chunks.length →
      (parseBufferGo (([] : List Char) ++ (chunks.take k).flatten)).2.length ≤
        MAX_BUFFER_SIZE := by
    intro k _
    have hle : (parseBufferGo ((chunks.take k).flatten)).2.length ≤
        ((chunks.take k).flatten).length := parseBufferGo_tail_length_le _
    have hmono : ((chunks.take k).flatten).length ≤ chunks.flatten.length := by
      conv_rhs => rw [← List.take_append_drop k chunks]
      rw [List.flatten_append, List.length_append]
      omega
    rw [List.nil_append]
    rw [hsplit] at hmono
    omega
  rw [feedAll_no_overflow chunks [] hnormal hcapk, List.nil_append, hsplit,
    parseBufferGo_interleave ps n0 hn0 hps]
  simp only [List.filterMap_map]
  have hcomp : (parseJsonStringModel ∘ fun p : JsonObj × List Char =>
      serialize (.obj p.1)) = (some ∘ fun p => Json.obj p.1) := by
    funext p
    exact parseJsonStringModel_serialize_obj p.1
  rw [hcomp, List.filterMap_eq_map, List.map_map]
  rfl

/-- C1 witness: one object whose string value contains both brace
characters, surrounded by noise, split into two chunks in the middle of
the string value. -/
theorem C1_amended_framing_witness :
    ('{' ∉ ([' ', 'n', 'o', 'i', 's', 'e', ' '] : List Char)) ∧
    feedAll ⟨[]⟩
      [(interleave [' ', 'n', 'o', 'i', 's', 'e', ' ']
          [(JsonObj.cons ['a'] (Json.str ['x', '}', '{', 'y']) JsonObj.nil, ['\n'])]).take 12,
       (interleave [' ', 'n', 'o', 'i', 's', 'e', ' ']
          [(JsonObj.cons ['a'] (Json.str ['x', '}', '{', 'y']) JsonObj.nil, ['\n'])]).drop 12] =
      (⟨[]⟩, [SPEv.message
        (Json.obj (JsonObj.cons ['a'] (Json.str ['x', '}', '{', 'y']) JsonObj.nil))]) := by
  refine ⟨by decide, ?_⟩
  exact C1_amended_framing
    [(JsonObj.cons ['a'] (Json.str ['x', '}', '{', 'y']) JsonObj.nil, ['\n'])]
    [' ', 'n', 'o', 'i', 's', 'e', ' '] _
    (by decide) (by decide)
    (by rw [show ∀ (a b : List Char), List.flatten [a, b] = a ++ (b ++ []) from
          fun a b => rfl, List.append_nil, List.take_append_drop])
    (by decide)

/-- C4 counterexample: input that never completes a frame and exceeds the
cap need not produce any overflow error: text without any opening brace is
discarded by `parseBuffer` before the cap check, so 10 MiB + 1 of spaces
fed as one chunk emits no event at all. -/
theorem C4_counterexample :
    MAX_BUFFER_SIZE < (List.replicate (MAX_BUFFER_SIZE + 1) ' ').length ∧
    (parseBufferGo (List.replicate (MAX_BUFFER_SIZE + 1) ' ')).1 = [] ∧
    (feed ⟨[]⟩ (List.replicate (MAX_BUFFER_SIZE + 1) ' ')).2 = [] := by
  have hmem : '{' ∉ List.replicate (MAX_BUFFER_SIZE + 1) ' ' := by
    intro hm
    have := List.eq_of_mem_replicate hm
    exact absurd this (by decide)
  have hpb : parseBufferGo (List.replicate (MAX_BUFFER_SIZE + 1) ' ') = ([], []) :=
    parseBufferGo_eq_nobrace (idxOfBrace_eq_none_iff.mpr hmem)
  refine ⟨by rw [List.length_replicate]; omega, by rw [hpb], ?_⟩
  rw [feed_eq, List.nil_append, hpb, if_neg (by simp [MAX_BUFFER_SIZE])]
  rfl

/-- C4 (amended): for input consisting of an opening brace followed by
text free of braces, totalling more than the cap, any chunking produces
exactly one overflow `error` event and nothing else; before the error the
buffer retains the whole input fed so far, and from the moment the error
is emitted onward the buffer is empty. -/
theorem C4_amended_overflow (t2 : List Char) (chunks : List (List Char))
    (h1 : '{' ∉ t2) (h2 : '}' ∉ t2)
    (hflat : chunks.flatten = '{' :: t2)
    (hbig : MAX_BUFFER_SIZE < ('{' :: t2).length) :
    feedAll ⟨[]⟩ chunks = (⟨[]⟩, [SPEv.error]) ∧
    ∀ k, ((feedAll ⟨[]⟩ (chunks.take k)).2 = [] ∧
          (feedAll ⟨[]⟩ (chunks.take k)).1.buffer = (chunks.take k).flatten) ∨
         ((feedAll ⟨[]⟩ (chunks.take k)).2 = [SPEv.error] ∧
          (feedAll ⟨[]⟩ (chunks.take k)).1.buffer = []) := by
  constructor
  · have h := feedAll_unclosed chunks [] [] t2
      (by rw [List.nil_append, List.append_nil, hflat]) h1 h2 (Or.inl rfl)
      (by simp [MAX_BUFFER_SIZE])
    rw [h, if_pos (by rw [hflat]; simpa using hbig)]
  · intro k
    have h := feedAll_unclosed (chunks.take k) [] ((chunks.drop k).flatten) t2
      (by rw [List.nil_append, ← List.flatten_append, List.take_append_drop, hflat])
      h1 h2 (Or.inl rfl) (by simp [MAX_BUFFER_SIZE])
    by_cases hcond : MAX_BUFFER_SIZE <
        ([] : List Char).length + ((chunks.take k).flatten).length
    · rw [if_pos hcond] at h
      rw [h]
      exact Or.inr ⟨rfl, rfl⟩
    · rw [if_neg hcond] at h
      rw [h]
      exact Or.inl ⟨rfl, by rw [List.nil_append]⟩

/-- C4 witness: an unclosed brace followed by 10 MiB of spaces, fed in
two chunks, produces exactly the overflow error with an empty buffer. -/
theorem C4_amended_overflow_witness :
    ('{' ∉ List.replicate MAX_BUFFER_SIZE ' ') ∧
    feedAll ⟨[]⟩ [['{'], List.replicate MAX_BUFFER_SIZE ' '] =
      (⟨[]⟩, [SPEv.error]) := by
  have hmem : '{' ∉ List.replicate MAX_BUFFER_SIZE ' ' := by
    intro hm
    exact absurd (List.eq_of_mem_replicate hm) (by decide)
  have hmem2 : '}' ∉ List.replicate MAX_BUFFER_SIZE ' ' := by
    intro hm
    exact absurd (List.eq_of_mem_replicate hm) (by decide)
  refine ⟨hmem, ?_⟩
  exact (C4_amended_overflow (List.replicate MAX_BUFFER_SIZE ' ')
    [['{'], List.replicate MAX_BUFFER_SIZE ' '] hmem hmem2
    (by rw [show List.flatten [['{'], List.replicate MAX_BUFFER_SIZE ' '] =
      '{' :: (List.replicate MAX_BUFFER_SIZE ' ' ++ []) from rfl, List.append_nil])
    (by rw [List.length_cons, List.length_replicate]; omega)).1

/-- C10: after every `feed` the retained buffer is either empty or begins
with an opening brace, and a sequence of chunks none of which contains an
opening brace is discarded entirely: the state stays empty and no event
(in particular no overflow error) is ever emitted. -/
theorem C10_buffer_invariant :
    (∀ (b c : List Char), (feed ⟨b⟩ c).1.buffer = [] ∨
      ∃ r, (feed ⟨b⟩ c).1.buffer = '{' :: r) ∧
    (∀ (chunks : List (List Char)), (∀ ch ∈ chunks, '{' ∉ ch) →
      feedAll ⟨[]⟩ chunks = (⟨[]⟩, [])) := by
  constructor
  · intro b c
    rw [feed_eq]
    by_cases hover : MAX_BUFFER_SIZE < (parseBufferGo (b ++ c)).2.length
    · rw [if_pos hover]
      exact Or.inl rfl
    · rw [if_neg hover]
      rcases parseBufferGo_tail_normal (b ++ c) with h | ⟨r, hr, -⟩
      · exact Or.inl h
      · exact Or.inr ⟨r, hr⟩
  · exact feedAll_noise

/-- C10 witness: concrete noise chunks without an opening brace. -/
theorem C10_buffer_invariant_witness :
    ((∀ ch ∈ [[')', '('], ['h', 'i', '}', '"']], '{' ∉ ch) : Prop) ∧
    feedAll ⟨[]⟩ [[')', '('], ['h', 'i', '}', '"']] = (⟨[]⟩, []) :=
  ⟨by decide, C10_buffer_invariant.2 [[')', '('], ['h', 'i', '}', '"']] (by decide)⟩

/-! ### Claim theorems for the LogWatcher -/

theorem parseLineGo_eq_findSome (rules : List LogRule) (seen : List String)
    (line : List Char) :
    (parseLineGo rules seen line).2 =
      (rules.findSome? (fireResult seen line)).toList := by
  induction rules with
  | nil => rfl
  | cons r rs ih =>
    rw [parseLineGo, List.findSome?]
    cases hp : r.pat line with
    | none => simp [fireResult, hp, ih]
    | some m =>
      simp only [fireResult, hp]
      by_cases hseen : errorKey (r.extract m) (sessionOf line) ∈ seen
      · simp [hseen, ih]
      · simp [hseen]

/-- C3 counterexample: feeding the spec's sample error line twice emits
two `log-line` events but also two `error` events, not one: the dedup
`continue` only skips the already-seen first rule, and the second rule
(`OAuthUnauthorizedError`) also matches the line under a fresh key. -/
theorem C3_counterexample :
    (processLines [] [sampleErrorLine, sampleErrorLine]).2.countP
        (fun e => match e with | WEv.errorEv _ => true | _ => false) = 2 ∧
    (processLines [] [sampleErrorLine, sampleErrorLine]).2.countP
        (fun e => match e with | WEv.logLine _ => true | _ => false) = 2 := by
  decide

/-- C3 (amended): feeding the sample line three times emits exactly three
`log-line` events and two `error` events — the first built by the
invalid-api-key rule (`OAuthExpiredError`), the second by the next
matching rule (`OAuthUnauthorizedError`); the third repetition is fully
deduplicated. -/
theorem C3_amended_dedup :
    (processLines [] [sampleErrorLine, sampleErrorLine, sampleErrorLine]).2 =
      [WEv.logLine (String.mk sampleErrorLine),
       WEv.errorEv
         { timestamp := some "t", service := "s1", providerID := some "openai",
           modelID := none, sessionID := some "s1",
           errorName := "OAuthExpiredError", statusCode := some 401,
           message := some "Your OpenAI session has expired. Please re-authenticate.",
           raw := String.mk sampleErrorLine },
       WEv.logLine (String.mk sampleErrorLine),
       WEv.errorEv
         { timestamp := some "t", service := "s1", providerID := some "openai",
           modelID := none, sessionID := some "s1",
           errorName := "OAuthUnauthorizedError", statusCode := some 401,
           message := some "Your OpenAI session has expired. Please re-authenticate.",
           raw := String.mk sampleErrorLine },
       WEv.logLine (String.mk sampleErrorLine)] := by
  decide

/-- C6 counterexample: in the reachable state created by a first line that
matches only rule 1, a second line matching rules 1 and 2 has its emitted
error built from rule 2 (`OAuthUnauthorizedError`) even though rule 1 —
the first rule in the table whose pattern matches the line — is
`OAuthExpiredError`. -/
theorem C6_counterexample :
    ((ERROR_PATTERNS.get? 0).map (fun r => (r.pat sampleErrorLine).isSome) =
      some true) ∧
    (processLines [] [sampleAuthLine, sampleErrorLine]).2.filterMap
        (fun e => match e with | WEv.errorEv er => some er.errorName | _ => none) =
      ["OAuthExpiredError", "OAuthUnauthorizedError"] := by
  decide

/-- C6 (amended): for every log line and every reachable seen-set, at most
one rule emits per line, and the emitted error (if any) is built by the
first rule in the ordered table whose pattern matches the line **and**
whose dedup key is not yet in the seen-set. -/
theorem C6_first_fresh_rule (seen : List String) (line : List Char) :
    (parseLine seen line).2 =
      (if containsSub ("ERROR".toList) line then
        (ERROR_PATTERNS.findSome? (fireResult seen line)).toList
      else []) ∧
    (parseLine seen line).2.length ≤ 1 := by
  have heq : (parseLine seen line).2 =
      (if containsSub ("ERROR".toList) line then
        (ERROR_PATTERNS.findSome? (fireResult seen line)).toList
      else []) := by
    rw [parseLine]
    by_cases h : containsSub ("ERROR".toList) line
    · rw [if_pos h, if_pos h, parseLineGo_eq_findSome]
    · rw [if_neg h, if_neg h]
  refine ⟨heq, ?_⟩
  rw [heq]
  by_cases h : containsSub ("ERROR".toList) line
  · rw [if_pos h]
    cases ERROR_PATTERNS.findSome? (fireResult seen line) <;> simp
  · rw [if_neg h]
    simp

theorem findAndWatchLatestLog_pos (s : WState) (listing : List String) (z : Nat) :
    ((findAndWatchLatestLog s listing z).readPosition = s.readPosition ∧
      (findAndWatchLatestLog s listing z).currentLogFile = s.currentLogFile)
    ∨ ((findAndWatchLatestLog s listing z).readPosition = z ∧
      (findAndWatchLatestLog s listing z).currentLogFile ≠ s.currentLogFile) := by
  cases hl : latestLogFile listing with
  | none =>
    have h1 : findAndWatchLatestLog s listing z = s := by
      simp only [findAndWatchLatestLog, hl]
    rw [h1]
    exact Or.inl ⟨rfl, rfl⟩
  | some latest =>
    by_cases hcur : s.currentLogFile = some latest
    · have h1 : findAndWatchLatestLog s listing z = s := by
        simp only [findAndWatchLatestLog, hl]
        rw [if_pos hcur]
      rw [h1]
      exact Or.inl ⟨rfl, rfl⟩
    · have h1 : findAndWatchLatestLog s listing z =
          { s with
              currentLogFile := some latest
              handleOpen := true
              readPosition := z } := by
        simp only [findAndWatchLatestLog, hl]
        rw [if_neg hcur]
      rw [h1]
      exact Or.inr ⟨rfl, fun h => hcur h.symm⟩

theorem startW_pos (s : WState) (listing : List String) (z : Nat) :
    ((startW s listing z).readPosition = s.readPosition ∧
      (startW s listing z).currentLogFile = s.currentLogFile)
    ∨ ((startW s listing z).readPosition = z ∧
      (startW s listing z).currentLogFile ≠ s.currentLogFile) := by
  rw [startW]
  by_cases hw : s.isWatching
  · rw [if_pos hw]
    exact Or.inl ⟨rfl, rfl⟩
  · rw [if_neg hw]
    exact findAndWatchLatestLog_pos
      { s with isWatching := true, seenErrors := [] } listing z

/-- C7: the read offset never decreases while the same log file stays
tracked; a completed read advances it by exactly the bytes read; and
whenever a discovery step adopts a different file, the offset is seeded
to that file's reported size, not zero. -/
theorem C7_offset_monotone (s : WState) (a : WAct) :
    ((wstep s a).1.currentLogFile = s.currentLogFile → s.currentLogFile ≠ none →
      s.readPosition ≤ (wstep s a).1.readPosition) ∧
    (∀ n content, a = WAct.readDone n content →
      (wstep s a).1.readPosition = s.readPosition + n) ∧
    ((wstep s a).1.currentLogFile ≠ s.currentLogFile →
      ∀ z, adoptedSize a = some z → (wstep s a).1.readPosition = z) := by
  refine ⟨?_, ?_, ?_⟩
  · intro hsame hne
    cases a with
    | startA listing statSize =>
      rcases startW_pos s listing statSize with ⟨hp, _⟩ | ⟨_, hc⟩
      · exact le_of_eq hp.symm
      · exact absurd hsame hc
    | discover listing statSize =>
      rcases findAndWatchLatestLog_pos s listing statSize with ⟨hp, _⟩ | ⟨_, hc⟩
      · exact le_of_eq hp.symm
      · exact absurd hsame hc
    | discoverFail => exact le_rfl
    | readDone n content => exact Nat.le_add_right _ _
    | stopA => exact absurd hsame.symm hne
  · intro n content ha
    subst ha
    rfl
  · intro hdiff z hz
    cases a with
    | startA listing statSize =>
      simp only [adoptedSize, Option.some.injEq] at hz
      subst hz
      rcases startW_pos s listing statSize with ⟨_, hc⟩ | ⟨hp, _⟩
      · exact absurd hc hdiff
      · exact hp
    | discover listing statSize =>
      simp only [adoptedSize, Option.some.injEq] at hz
      subst hz
      rcases findAndWatchLatestLog_pos s listing statSize with ⟨_, hc⟩ | ⟨hp, _⟩
      · exact absurd hc hdiff
      · exact hp
    | discoverFail => simp [adoptedSize] at hz
    | readDone n content => simp [adoptedSize] at hz
    | stopA => simp [adoptedSize] at hz

/-- C7 witness: a completed read of 5 bytes advances the offset from 3 to
8 on a tracked file. -/
theorem C7_offset_monotone_witness :
    (wstep ⟨true, some "a.log", true, 3, []⟩ (WAct.readDone 5 [])).1.readPosition =
      3 + 5 :=
  (C7_offset_monotone ⟨true, some "a.log", true, 3, []⟩
    (WAct.readDone 5 [])).2.1 5 [] rfl

/-- C9 (code bug): after `stop()`, an in-flight `readNewContent`
continuation that already passed its entry guard still emits `log-line`
and `error` events when its read completes, because the source re-checks
neither `isWatching` nor the handle after the awaits; the entry guard is
false in the stopped state and `stop` itself is idempotent, but neither
prevents the in-flight emission. -/
theorem C9_divergence :
    ((wstep (wstep (wstep initialWState (WAct.startA ["opencode.log"] 3)).1
        WAct.stopA).1 (WAct.readDone 29 sampleStopLine)).2 ≠ []) ∧
    ((wstep (wstep initialWState (WAct.startA ["opencode.log"] 3)).1
        WAct.stopA).1.isWatching = false) ∧
    (readGuard (wstep (wstep initialWState (WAct.startA ["opencode.log"] 3)).1
        WAct.stopA).1 = false) ∧
    (∀ s : WState, stopW (stopW s) = stopW s) := by
  refine ⟨by decide, by decide, by decide, fun s => rfl⟩

/-! ### Claim theorems for the broker and the validator -/

theorem lookupPending_remove_self (ps : List (Nat × PKind)) (id : Nat) :
    lookupPending (removePending ps id) id = none := by
  induction ps with
  | nil => rfl
  | cons p ps ih =>
    by_cases h : p.1 = id
    · simpa [removePending, List.filter_cons, h] using ih
    · simpa [removePending, List.filter_cons, h, lookupPending] using ih

theorem lookupPending_mem {ps : List (Nat × PKind)} {id : Nat} {k : PKind}
    (h : lookupPending ps id = some k) : (id, k) ∈ ps := by
  induction ps with
  | nil => cases h
  | cons p ps ih =>
    rw [lookupPending] at h
    by_cases hp : p.1 = id
    · rw [if_pos hp] at h
      injection h with h2
      subst h2
      subst hp
      exact List.mem_cons_self p ps
    · rw [if_neg hp] at h
      exact List.mem_cons_of_mem _ (ih h)

theorem PInv_create (s : PState) (k : PKind) (h : PInv s) :
    PInv { s with
            nextId := s.nextId + 1
            pending := (s.nextId, k) :: s.pending } := by
  obtain ⟨h1, h2, h3, h4, h5⟩ := h
  refine ⟨?_, ?_, ?_, h4, ?_⟩
  · intro p hp
    rcases List.mem_cons.mp hp with rfl | hp'
    · exact Nat.lt_succ_self _
    · exact Nat.lt_succ_of_lt (h1 p hp')
  · intro q hq
    exact Nat.lt_succ_of_lt (h2 q hq)
  · simp only [List.map_cons, List.nodup_cons]
    refine ⟨?_, h3⟩
    intro hmem
    rcases List.mem_map.mp hmem with ⟨p, hp, hp1⟩
    have := h1 p hp
    omega
  · intro p hp q hq
    rcases List.mem_cons.mp hp with rfl | hp'
    · intro he
      have := h2 q hq
      simp only at he
      omega
    · exact h5 p hp' q hq

theorem PInv_settle (s : PState) (id : Nat) (k : PKind) (o : SettleOutcome)
    (h : PInv s) (hl : lookupPending s.pending id = some k) :
    PInv { s with
            pending := removePending s.pending id
            settled := (id, o) :: s.settled } := by
  obtain ⟨h1, h2, h3, h4, h5⟩ := h
  have hid : (id, k) ∈ s.pending := lookupPending_mem hl
  refine ⟨?_, ?_, ?_, ?_, ?_⟩
  · intro p hp
    exact h1 p (List.mem_of_mem_filter hp)
  · intro q hq
    rcases List.mem_cons.mp hq with rfl | hq'
    · exact h1 _ hid
    · exact h2 q hq'
  · exact h3.sublist ((List.filter_sublist _).map Prod.fst)
  · simp only [List.map_cons, List.nodup_cons]
    refine ⟨?_, h4⟩
    intro hmem
    rcases List.mem_map.mp hmem with ⟨q, hq, hq1⟩
    exact h5 (id, k) hid q hq hq1.symm
  · intro p hp q hq
    rcases List.mem_cons.mp hq with rfl | hq'
    · have := List.of_mem_filter hp
      simpa using this
    · exact h5 p (List.mem_of_mem_filter hp) q hq'

theorem PInv_pstep (s : PState) (a : PAct) (h : PInv s) : PInv (pstep s a).1 := by
  cases a with
  | createPerm => exact PInv_create s PKind.permission h
  | createQuest => exact PInv_create s PKind.question h
  | resolvePerm id allowed =>
    cases hl : lookupPending s.pending id with
    | none => simpa [pstep, hl] using h
    | some k =>
      cases k with
      | permission =>
        simpa [pstep, hl] using
          PInv_settle s id PKind.permission (SettleOutcome.permOutcome allowed) h hl
      | question => simpa [pstep, hl] using h
  | resolveQuest id resp =>
    cases hl : lookupPending s.pending id with
    | none => simpa [pstep, hl] using h
    | some k =>
      cases k with
      | permission => simpa [pstep, hl] using h
      | question =>
        simpa [pstep, hl] using
          PInv_settle s id PKind.question (SettleOutcome.questOutcome resp) h hl
  | fireTimeout id =>
    cases hl : lookupPending s.pending id with
    | none => simpa [pstep, hl] using h
    | some k =>
      cases k with
      | permission =>
        simpa [pstep, hl] using
          PInv_settle s id PKind.permission (SettleOutcome.permOutcome false) h hl
      | question =>
        simpa [pstep, hl] using
          PInv_settle s id PKind.question (SettleOutcome.questOutcome ⟨true⟩) h hl
  | clearAll =>
    obtain ⟨h1, h2, h3, h4, h5⟩ := h
    exact ⟨fun p hp => absurd hp (List.not_mem_nil p), h2, List.nodup_nil, h4,
      fun p hp => absurd hp (List.not_mem_nil p)⟩

theorem PInv_initial : PInv initialPState :=
  ⟨fun p hp => absurd hp (List.not_mem_nil p),
   fun q hq => absurd hq (List.not_mem_nil q),
   List.nodup_nil, List.nodup_nil,
   fun p hp => absurd hp (List.not_mem_nil p)⟩

theorem PInv_runP (acts : List PAct) : ∀ s : PState, PInv s → PInv (runP s acts) := by
  induction acts with
  | nil =>
    intro s h
    exact h
  | cons a as ih =>
    intro s h
    rw [runP]
    exact ih _ (PInv_pstep s a h)

/-- C2: along every trace of broker operations from the initial state,
the settlement log never records the same request id twice (at most one
resolution ever succeeds per id); resolving or timing out an id with no
pending record returns `false` and leaves the broker unchanged; and a
resolve on a pending permission returns `true`, prepends exactly one
settlement carrying the caller's verdict, and removes the pending record
so that every later attempt on the id hits the no-op case. -/
theorem C2_exactly_once_settlement (acts : List PAct) (id : Nat) (b : Bool) :
    ((runP initialPState acts).settled.map Prod.fst).Nodup ∧
    (lookupPending (runP initialPState acts).pending id = none →
      pstep (runP initialPState acts) (PAct.resolvePerm id b) =
        (runP initialPState acts, false) ∧
      pstep (runP initialPState acts) (PAct.fireTimeout id) =
        (runP initialPState acts, false)) ∧
    (lookupPending (runP initialPState acts).pending id = some PKind.permission →
      (pstep (runP initialPState acts) (PAct.resolvePerm id b)).2 = true ∧
      (pstep (runP initialPState acts) (PAct.resolvePerm id b)).1.settled =
        (id, SettleOutcome.permOutcome b) :: (runP initialPState acts).settled ∧
      lookupPending
        (pstep (runP initialPState acts) (PAct.resolvePerm id b)).1.pending id =
        none) := by
  refine ⟨(PInv_runP acts initialPState PInv_initial).2.2.2.1, ?_, ?_⟩
  · intro hl
    refine ⟨?_, ?_⟩ <;> simp [pstep, hl]
  · intro hl
    refine ⟨?_, ?_, ?_⟩
    · simp [pstep, hl]
    · simp [pstep, hl]
    · simp only [pstep, hl]
      exact lookupPending_remove_self _ _

/-- C2 witness: after creating one permission request (id 0) and
resolving it, the id is no longer pending, the settlement log has no
duplicate id, and both a second resolve and a late timeout on id 0
return `false` without changing the broker. -/
theorem C2_exactly_once_settlement_witness :
    lookupPending
      (runP initialPState [PAct.createPerm, PAct.resolvePerm 0 true]).pending 0 =
      none ∧
    ((runP initialPState
        [PAct.createPerm, PAct.resolvePerm 0 true]).settled.map Prod.fst).Nodup ∧
    pstep (runP initialPState [PAct.createPerm, PAct.resolvePerm 0 true])
        (PAct.resolvePerm 0 false) =
      (runP initialPState [PAct.createPerm, PAct.resolvePerm 0 true], false) ∧
    pstep (runP initialPState [PAct.createPerm, PAct.resolvePerm 0 true])
        (PAct.fireTimeout 0) =
      (runP initialPState [PAct.createPerm, PAct.resolvePerm 0 true], false) :=
  ⟨by decide,
   (C2_exactly_once_settlement [PAct.createPerm, PAct.resolvePerm 0 true] 0 false).1,
   ((C2_exactly_once_settlement [PAct.createPerm, PAct.resolvePerm 0 true] 0
      false).2.1 (by decide)).1,
   ((C2_exactly_once_settlement [PAct.createPerm, PAct.resolvePerm 0 true] 0
      false).2.1 (by decide)).2⟩

/-- C5: when the timer of a still-pending request fires, a pending
permission settles to `false` (deny-by-default) and a pending question
settles to a declined response; in both cases the timer reports success,
the pending record is removed, and a subsequent manual resolve on the
same id returns `false` with no further effect. -/
theorem C5_timeout_default (s : PState) (id : Nat) (b : Bool)
    (resp : QuestionResponseData) :
    (lookupPending s.pending id = some PKind.permission →
      (pstep s (PAct.fireTimeout id)).2 = true ∧
      (pstep s (PAct.fireTimeout id)).1.settled =
        (id, SettleOutcome.permOutcome false) :: s.settled ∧
      lookupPending (pstep s (PAct.fireTimeout id)).1.pending id = none ∧
      pstep (pstep s (PAct.fireTimeout id)).1 (PAct.resolvePerm id b) =
        ((pstep s (PAct.fireTimeout id)).1, false)) ∧
    (lookupPending s.pending id = some PKind.question →
      (pstep s (PAct.fireTimeout id)).2 = true ∧
      (pstep s (PAct.fireTimeout id)).1.settled =
        (id, SettleOutcome.questOutcome ⟨true⟩) :: s.settled ∧
      lookupPending (pstep s (PAct.fireTimeout id)).1.pending id = none ∧
      pstep (pstep s (PAct.fireTimeout id)).1 (PAct.resolveQuest id resp) =
        ((pstep s (PAct.fireTimeout id)).1, false)) := by
  have hrem : lookupPending (removePending s.pending id) id = none :=
    lookupPending_remove_self s.pending id
  constructor
  · intro hl
    refine ⟨by simp [pstep, hl], by simp [pstep, hl], ?_, ?_⟩
    · simpa [pstep, hl] using hrem
    · simp [pstep, hl, hrem]
  · intro hl
    refine ⟨by simp [pstep, hl], by simp [pstep, hl], ?_, ?_⟩
    · simpa [pstep, hl] using hrem
    · simp [pstep, hl, hrem]

/-- C5 witness: with ids 0 (permission) and 1 (question) pending and
their timers firing, id 0 settles to `false` and id 1 settles to a
declined response. -/
theorem C5_timeout_default_witness :
    (pstep ⟨2, [(0, PKind.permission), (1, PKind.question)], []⟩
        (PAct.fireTimeout 0)).2 = true ∧
    (pstep ⟨2, [(0, PKind.permission), (1, PKind.question)], []⟩
        (PAct.fireTimeout 0)).1.settled =
      (0, SettleOutcome.permOutcome false) :: [] ∧
    (pstep ⟨2, [(0, PKind.permission), (1, PKind.question)], []⟩
        (PAct.fireTimeout 1)).2 = true ∧
    (pstep ⟨2, [(0, PKind.permission), (1, PKind.question)], []⟩
        (PAct.fireTimeout 1)).1.settled =
      (1, SettleOutcome.questOutcome ⟨true⟩) :: [] :=
  ⟨((C5_timeout_default ⟨2, [(0, PKind.permission), (1, PKind.question)], []⟩
      0 true ⟨false⟩).1 (by decide)).1,
   ((C5_timeout_default ⟨2, [(0, PKind.permission), (1, PKind.question)], []⟩
      0 true ⟨false⟩).1 (by decide)).2.1,
   ((C5_timeout_default ⟨2, [(0, PKind.permission), (1, PKind.question)], []⟩
      1 true ⟨false⟩).2 (by decide)).1,
   ((C5_timeout_default ⟨2, [(0, PKind.permission), (1, PKind.question)], []⟩
      1 true ⟨false⟩).2 (by decide)).2.1⟩

/-- C8: `validateThoughtEvent` is structural only — its result is
identical in every handler state (task registration is irrelevant); it
returns a populated event exactly when all five fields validate
(non-empty strings, closed-enum category, numeric timestamp), the
populated event carrying exactly the validated field values; on any
violation it returns `none`. -/
theorem C8_structural_validation (d : RawThought) (st st2 : TSState) :
    validateThoughtEventIn st d = validateThoughtEventIn st2 d ∧
    ((validateThoughtEvent d).isSome ↔
      ((asNonemptyStr d.taskId).isSome ∧ (asNonemptyStr d.content).isSome ∧
       (asCategory d.category).isSome ∧ (asNonemptyStr d.agentName).isSome ∧
       (asNum d.timestamp).isSome)) ∧
    (∀ t c cat a ts,
      asNonemptyStr d.taskId = some t → asNonemptyStr d.content = some c →
      asCategory d.category = some cat → asNonemptyStr d.agentName = some a →
      asNum d.timestamp = some ts →
      validateThoughtEvent d = some ⟨t, c, cat, a, ts⟩) := by
  refine ⟨rfl, ?_, ?_⟩
  · rw [validateThoughtEvent]
    cases asNonemptyStr d.taskId <;> cases asNonemptyStr d.content <;>
      cases asCategory d.category <;> cases asNonemptyStr d.agentName <;>
      cases asNum d.timestamp <;> simp
  · intro t c cat a ts h1 h2 h3 h4 h5
    rw [validateThoughtEvent, h1, h2, h3, h4, h5]

/-- C8 witness: the spec's concrete payload validates to the populated
event, and the same payload with category `bogus` yields `none`. -/
theorem C8_structural_validation_witness :
    validateThoughtEvent
      ⟨some (DynVal.vstr "t1"), some (DynVal.vstr "x"),
       some (DynVal.vstr "observation"), some (DynVal.vstr "a"),
       some (DynVal.vnum 123)⟩ =
      some ⟨"t1", "x", ThoughtCategory.observation, "a", 123⟩ ∧
    validateThoughtEvent
      ⟨some (DynVal.vstr "t1"), some (DynVal.vstr "x"),
       some (DynVal.vstr "bogus"), some (DynVal.vstr "a"),
       some (DynVal.vnum 123)⟩ = none :=
  ⟨(C8_structural_validation
      ⟨some (DynVal.vstr "t1"), some (DynVal.vstr "x"),
       some (DynVal.vstr "observation"), some (DynVal.vstr "a"),
       some (DynVal.vnum 123)⟩ ⟨[]⟩ ⟨[]⟩).2.2
      "t1" "x" ThoughtCategory.observation "a" 123
      (by decide) (by decide) (by decide) (by decide) (by decide),
   by decide⟩

end OpenWork
